import Mathlib

/-!
A shallow embedding of the hash-trie core (a persistent hash array mapped
trie).  The embedding fixes the parameterization to an 8-bit hash word
(values below 256) and a flag word of W = 4 bits (so log2 W = 2 bits of
hash are consumed per level, and flags exist at depths 0..3).  Keys and
values are arbitrary types with decidable equality; the hasher is an
explicit function argument.

The sources of this repository are src/node/lnode.rs, src/hash_trie.rs and
src/set.rs.  Definitions for the collision-list node (LNode) and for the
trie facade (HashTrie) are translated from those files.  The remaining node
kinds (flag.rs, snode.rs, cnode.rs, mnode.rs) are not in the sources; the
definitions for them below are modelled from the specification and say so
in their doc comments.

Result enums are collapsed where the Rust side only tags the node shape:
a find result is an Option of the entry, a transmute result is an Option
of the produced node (none standing for Removed).  Reference-returning
results are modelled by returning the pointed-to key/value pairs.  The
reduction values threaded by the joint-transmute walker are omitted (they
never influence the resulting trie, and no claim mentions them); the
transform walker keeps its reductions.  A Rust panic is modelled by a
dedicated result constructor.
-/

set_option linter.unusedSectionVars false
set_option maxRecDepth 1000000

namespace HT

/-- Modelled from the spec (flag.rs is missing): the child-slot index of
hash h at a depth, i.e. the depth-th 2-bit group of h. -/
def flagIndex (h d : Nat) : Nat := h / 4 ^ d % 4

/-- Modelled from the spec: the single-bit mask marking slot presence. -/
def flagMask (h d : Nat) : Nat := 2 ^ flagIndex h d

/-- Modelled from the spec: population count of a 4-bit bitmap. -/
def popcount (b : Nat) : Nat := b % 2 + b / 2 % 2 + b / 4 % 2 + b / 8 % 2

/-- Modelled from the spec: the compact-array index of the child with the
given mask, i.e. popcount of bitmap AND (mask - 1); for mask = 2 ^ i this
is popcount (bitmap mod 2 ^ i). -/
def sparseIndex (bitmap mask : Nat) : Nat := popcount (bitmap % mask)

/-- Bit test: true when bit i of the bitmap is set. -/
def hasBit (bitmap i : Nat) : Bool := bitmap / 2 ^ i % 2 == 1

/-- Modelled from the spec: a flag is a hash value together with a depth;
index and mask are computed from these. -/
structure Flag where
  hashValue : Nat
  depth : Nat
deriving Repr, DecidableEq

/-- Modelled from the spec: Flag::new, a flag at depth 0. -/
def Flag.new (h : Nat) : Flag := ⟨h, 0⟩

/-- Modelled from the spec: Flag::new_at_depth returns none when the depth
falls off the 8-bit hash (2 * d >= 8). -/
def Flag.newAtDepth (h d : Nat) : Option Flag :=
  if 2 * d ≥ 8 then none else some ⟨h, d⟩

/-- The slot index of a flag. -/
def Flag.index (f : Flag) : Nat := flagIndex f.hashValue f.depth

/-- src/node/snode.rs is missing; an SNode is a single key/value pair. -/
structure SNode (K V : Type) where
  key : K
  value : V

mutual
/-- From src/node/lnode.rs: a collision-list node with a cached size. -/
inductive LNode (K V : Type) : Type where
| mk (key : K) (value : V) (next : LNodeNext K V) (size : Nat) : LNode K V
/-- From src/node/lnode.rs: the tail of a collision list is a further
LNode or a terminal SNode. -/
inductive LNodeNext (K V : Type) : Type where
| L (lnode : LNode K V) : LNodeNext K V
| S (snode : SNode K V) : LNodeNext K V
end

mutual
/-- Modelled from the spec (cnode.rs is missing): a compressed branch node
with a 4-bit bitmap, a compact child array and a cached size. -/
inductive CNode (K V : Type) : Type where
| mk (bitmap : Nat) (children : List (MNode K V)) (size : Nat) : CNode K V
/-- Modelled from the spec (mnode.rs is missing): the node sum. -/
inductive MNode (K V : Type) : Type where
| C (cnode : CNode K V) : MNode K V
| L (lnode : LNode K V) : MNode K V
| S (snode : SNode K V) : MNode K V
end

variable {K V : Type}

def LNode.key : LNode K V → K
| .mk k _ _ _ => k

def LNode.value : LNode K V → V
| .mk _ v _ _ => v

def LNode.next : LNode K V → LNodeNext K V
| .mk _ _ n _ => n

def LNode.size : LNode K V → Nat
| .mk _ _ _ s => s

/-- From src/node/lnode.rs (LNodeNext::key). -/
def LNodeNext.key : LNodeNext K V → K
| .L l => l.key
| .S s => s.key

/-- From src/node/lnode.rs (LNode::new): conses an entry onto a chain and
caches the size, 1 plus the size of the tail. -/
def LNode.new (key : K) (value : V) (next : LNodeNext K V) : LNode K V :=
  .mk key value next (1 + match next with | .L l => l.size | .S _ => 1)

def CNode.bitmap : CNode K V → Nat
| .mk b _ _ => b

def CNode.children : CNode K V → List (MNode K V)
| .mk _ c _ => c

def CNode.size : CNode K V → Nat
| .mk _ _ s => s

/-- The cached size of a node; an SNode counts 1. -/
def MNode.size : MNode K V → Nat
| .C c => c.size
| .L l => l.size
| .S _ => 1

/-- Builds a CNode caching the sum of the cached sizes of the children. -/
def mkCNode (bitmap : Nat) (children : List (MNode K V)) : CNode K V :=
  .mk bitmap children (children.foldr (fun c a => c.size + a) 0)

/-- From src/node/lnode.rs: the From conversion of a chain tail into the
node sum. -/
def LNodeNext.toMNode : LNodeNext K V → MNode K V
| .L l => .L l
| .S s => .S s

mutual
/-- The entries of a collision chain, head first. -/
def LNode.entries : LNode K V → List (K × V)
| .mk k v next _ => (k, v) :: next.entries
def LNodeNext.entries : LNodeNext K V → List (K × V)
| .L l => l.entries
| .S s => [(s.key, s.value)]
end

mutual
/-- All entries stored under a node, children in bitmap order. -/
def MNode.entries : MNode K V → List (K × V)
| .C (.mk _ children _) => MNode.entriesList children
| .L l => l.entries
| .S s => [(s.key, s.value)]
def MNode.entriesList : List (MNode K V) → List (K × V)
| [] => []
| n :: rest => MNode.entries n ++ MNode.entriesList rest
end

/-- All keys stored under a node. -/
def MNode.keys (n : MNode K V) : List K := n.entries.map Prod.fst

mutual
/-- A structural size used only as a termination measure (the cached size
fields play no role in termination). -/
def MNode.tsize : MNode K V → Nat
| .C (.mk _ children _) => 1 + MNode.tsizeList children
| .L _ => 1
| .S _ => 1
def MNode.tsizeList : List (MNode K V) → Nat
| [] => 0
| n :: rest => MNode.tsize n + MNode.tsizeList rest
end

variable [DecidableEq K] [DecidableEq V]

mutual
/-- Modelled from the spec (the PartialEq of the node sum is in the missing
mnode.rs): structural equality with mask-ordered CNode children compared
pointwise and collision chains compared as unordered multisets of entries;
cached sizes are derived data and are ignored. -/
def MNode.eqb : MNode K V → MNode K V → Bool
| .C c1, .C c2 => CNode.eqb c1 c2
| .L l1, .L l2 => @List.isPerm _ instBEqOfDecidableEq l1.entries l2.entries
| .S s1, .S s2 => decide (s1.key = s2.key) && decide (s1.value = s2.value)
| _, _ => false
def CNode.eqb : CNode K V → CNode K V → Bool
| .mk b1 ch1 _, .mk b2 ch2 _ => b1 == b2 && MNode.eqbList ch1 ch2
def MNode.eqbList : List (MNode K V) → List (MNode K V) → Bool
| [], [] => true
| x :: xs, y :: ys => MNode.eqb x y && MNode.eqbList xs ys
| _, _ => false
end

/-- List lookup used in place of indexing into the compact child array. -/
def getIn : List α → Nat → Option α
| [], _ => none
| x :: _, 0 => some x
| _ :: rest, i + 1 => getIn rest i

/-- Insertion into the compact child array at a given position. -/
def listInsertAt : List α → Nat → α → List α
| l, 0, a => a :: l
| [], _ + 1, a => [a]
| x :: xs, n + 1, a => x :: listInsertAt xs n a

/-- Removal from the compact child array at a given position. -/
def listRemoveAt : List α → Nat → List α
| [], _ => []
| _ :: xs, 0 => xs
| x :: xs, n + 1 => x :: listRemoveAt xs n

/-- The slots (ascending) whose bits are set in a 4-bit bitmap. -/
def bitmapSlots (bitmap : Nat) : List Nat :=
  (List.range 4).filter (fun i => hasBit bitmap i)

/-- Modelled from the spec (snode.rs is missing): SNode::find compares the
stored key with the argument. -/
def SNode.find (s : SNode K V) (k : K) : Option (K × V) :=
  if s.key = k then some (s.key, s.value) else none

mutual
/-- From src/node/lnode.rs (LNode::find): linear scan, first equality
match wins; none stands for FindResult::NotFound. -/
def LNode.find (l : LNode K V) (k : K) : Option (K × V) :=
  match l with
  | .mk key value next _ =>
    if key = k then some (key, value) else next.find k
def LNodeNext.find (n : LNodeNext K V) (k : K) : Option (K × V) :=
  match n with
  | .L l => l.find k
  | .S s => s.find k
end

mutual
/-- Modelled from the spec (mnode.rs is missing): find dispatch over the
node sum; the flag is deepened by one level at each CNode. -/
def MNode.find (n : MNode K V) (k : K) (flag : Option Flag) : Option (K × V) :=
  match n with
  | .C c => CNode.find c k flag
  | .L l => l.find k
  | .S s => s.find k
/-- Modelled from the spec (cnode.rs is missing): CNode::find tests the
presence bit and recurses into the popcount-indexed child. -/
def CNode.find (c : CNode K V) (k : K) (flag : Option Flag) : Option (K × V) :=
  match c, flag with
  | _, none => none
  | .mk bitmap children _, some f =>
    if hasBit bitmap f.index then
      CNode.findIn children (sparseIndex bitmap (2 ^ f.index)) k
        (Flag.newAtDepth f.hashValue (f.depth + 1))
    else none
/-- Walks the compact child array to the addressed position and continues
the find there. -/
def CNode.findIn (children : List (MNode K V)) (i : Nat) (k : K) (flag : Option Flag) : Option (K × V) :=
  match children, i with
  | [], _ => none
  | c :: _, 0 => MNode.find c k flag
  | _ :: rest, j + 1 => CNode.findIn rest j k flag
end

/-- Modelled from the spec (snode.rs is missing): SNode::remove returns the
removed pair when the stored key matches (RemovedZ), else NotFound. -/
def SNode.remove (s : SNode K V) (k : K) : Option (K × V) :=
  if s.key = k then some (s.key, s.value) else none

/-- From src/node/lnode.rs (LNodeRemoveResult). -/
inductive LNodeRemoveResult (K V : Type) where
| NotFound
| RemovedL (l : LNode K V) (k : K) (v : V)
| RemovedS (s : SNode K V) (k : K) (v : V)

/-- From src/node/lnode.rs (remove_from_lnode): recursive removal of the
first entry whose key equals the argument; the chain shortens by one, and
collapses to an SNode when only one entry remains. -/
def removeFromLNode (l : LNode K V) (k : K) : LNodeRemoveResult K V :=
  match l with
  | .mk key value next _ =>
    if key = k then
      match next with
      | .L lnode => .RemovedL lnode key value
      | .S snode => .RemovedS snode key value
    else
      match next with
      | .L lnode =>
        match removeFromLNode lnode k with
        | .NotFound => .NotFound
        | .RemovedL l2 rk rv => .RemovedL (LNode.new key value (.L l2)) rk rv
        | .RemovedS s2 rk rv => .RemovedL (LNode.new key value (.S s2)) rk rv
      | .S snode =>
        match snode.remove k with
        | none => .NotFound
        | some (rk, rv) => .RemovedS ⟨key, value⟩ rk rv

/-- The remove result of the node sum: the replacement node (none when the
subtree becomes empty, mirroring RemovedZ) plus the removed pair. -/
inductive RemoveResult (K V : Type) where
| NotFound
| Removed (node : Option (MNode K V)) (k : K) (v : V)

/-- True for the node shapes (S and L) that a CNode with a single
remaining child is collapsed into. -/
def MNode.isLeafSL : MNode K V → Bool
| .C _ => false
| .L _ => true
| .S _ => true

mutual
/-- Modelled from the spec (mnode.rs is missing): remove dispatch; the
LNode arm is From src/node/lnode.rs (lnode::remove, which wraps
remove_from_lnode). -/
def MNode.remove (n : MNode K V) (k : K) (flag : Option Flag) : RemoveResult K V :=
  match n with
  | .C c => CNode.remove c k flag
  | .L l =>
    match removeFromLNode l k with
    | .NotFound => .NotFound
    | .RemovedL l2 rk rv => .Removed (some (.L l2)) rk rv
    | .RemovedS s2 rk rv => .Removed (some (.S s2)) rk rv
  | .S s =>
    match s.remove k with
    | none => .NotFound
    | some (rk, rv) => .Removed none rk rv
/-- Modelled from the spec (cnode.rs is missing): CNode::remove recurses
into the addressed child; a vanished child clears its bit and shrinks the
array; a CNode left with one S or L child at a non-root depth is replaced
by that child. -/
def CNode.remove (c : CNode K V) (k : K) (flag : Option Flag) : RemoveResult K V :=
  match c, flag with
  | _, none => .NotFound
  | .mk bitmap children _, some f =>
    if hasBit bitmap f.index then
      let idx := sparseIndex bitmap (2 ^ f.index)
      match CNode.removeIn children idx k (Flag.newAtDepth f.hashValue (f.depth + 1)) with
      | .NotFound => .NotFound
      | .Removed none rk rv =>
        let bitmap2 := bitmap - 2 ^ f.index
        let children2 := listRemoveAt children idx
        match children2 with
        | [] => .Removed none rk rv
        | [child] =>
          if f.depth ≠ 0 ∧ child.isLeafSL then .Removed (some child) rk rv
          else .Removed (some (.C (mkCNode bitmap2 children2))) rk rv
        | _ => .Removed (some (.C (mkCNode bitmap2 children2))) rk rv
      | .Removed (some child2) rk rv =>
        let children2 := children.set idx child2
        match children2 with
        | [child] =>
          if f.depth ≠ 0 ∧ child.isLeafSL then .Removed (some child) rk rv
          else .Removed (some (.C (mkCNode bitmap children2))) rk rv
        | _ => .Removed (some (.C (mkCNode bitmap children2))) rk rv
    else .NotFound
/-- Walks the compact child array to the addressed position and removes
there. -/
def CNode.removeIn (children : List (MNode K V)) (i : Nat) (k : K) (flag : Option Flag) : RemoveResult K V :=
  match children, i with
  | [], _ => .NotFound
  | c :: _, 0 => MNode.remove c k flag
  | _ :: rest, j + 1 => CNode.removeIn rest j k flag
end

/-- Modelled from the spec (cnode.rs is missing):
cnode::lift_to_cnode_and_insert combines two nodes with distinct hashes
into a CNode at the given depth; while the two hashes share the slot index
the pair is pushed one level deeper inside a single-child CNode, and where
they diverge a two-child CNode holds them sorted by mask.  The depth cap
of 4 only serves totality; it is unreachable when the two hashes differ
and agree below the starting depth. -/
def cnodeLiftGo (a : MNode K V) (ha : Nat) (b : MNode K V) (hb : Nat) : Nat → Nat → CNode K V
| depth, 0 => mkCNode (2 ^ flagIndex ha depth) [a, b]
| depth, rem + 1 =>
  let ia := flagIndex ha depth
  let ib := flagIndex hb depth
  if ia = ib then
    mkCNode (2 ^ ia) [.C (cnodeLiftGo a ha b hb (depth + 1) rem)]
  else if ia < ib then mkCNode (2 ^ ia + 2 ^ ib) [a, b]
  else mkCNode (2 ^ ia + 2 ^ ib) [b, a]

/-- The lift entered at a depth: at most 4 - depth levels remain before
the 8-bit hash is exhausted. -/
def cnodeLift (a : MNode K V) (ha : Nat) (b : MNode K V) (hb : Nat) (depth : Nat) : CNode K V :=
  cnodeLiftGo a ha b hb depth (4 - depth)

/-- The insert result of the node sum: Found carries the already-present
entry (the Err of a non-replacing insert), Inserted carries the
replacement node and the previously stored pair when one was replaced.
Panicked models a Rust panic. -/
inductive InsertResult (K V : Type) where
| Found (k : K) (v : V)
| Inserted (node : MNode K V) (prev : Option (K × V))
| Panicked

/-- From src/node/lnode.rs (lift_to_cnode_and_insert): when the hash of
the stored chain equals the hash of the flag the new entry is consed onto
the chain (a new collider, no previous entry); otherwise the chain and a
new SNode are combined into a CNode at the depth of the flag.  The source
unwraps Flag::new_at_depth for the stored hash, which panics when the
depth of the flag is past the hash width. -/
def liftToCnodeAndInsert (hv : K → Nat) (this : LNodeNext K V) (k : K) (v : V) (keyFlag : Flag) : InsertResult K V :=
  let thisHash := hv this.key
  if thisHash = keyFlag.hashValue then
    .Inserted (.L (LNode.new k v this)) none
  else
    match Flag.newAtDepth thisHash keyFlag.depth with
    | none => .Panicked
    | some _ =>
      .Inserted (.C (cnodeLift this.toMNode thisHash (.S ⟨k, v⟩) keyFlag.hashValue keyFlag.depth)) none

/-- From src/node/lnode.rs (lnode::insert): a found key is returned as-is
(replace = false) or removed and re-consed (replace = true, where a
NotFound from the removal is a panic); an absent key is lifted with the
incoming flag, whose unwrap panics when the flag is none. -/
def LNode.insert (hv : K → Nat) (l : LNode K V) (k : K) (v : V) (flag : Option Flag) (replace : Bool) : InsertResult K V :=
  match l.find k with
  | some (k0, v0) =>
    if replace then
      match removeFromLNode l k with
      | .RemovedL l2 pk pv => .Inserted (.L (LNode.new k v (.L l2))) (some (pk, pv))
      | .RemovedS s2 pk pv => .Inserted (.L (LNode.new k v (.S s2))) (some (pk, pv))
      | .NotFound => .Panicked
    else .Found k0 v0
  | none =>
    match flag with
    | some f => liftToCnodeAndInsert hv (.L l) k v f
    | none => .Panicked

/-- Modelled from the spec (snode.rs and the SNode arm of cnode.rs insert
are missing): an equal key is replaced per policy; a differing key is
lifted with the flag; at an exhausted flag with equal hashes the pair
falls through to an LNode per the hash-exhaustion design note. -/
def SNode.insert (hv : K → Nat) (s : SNode K V) (k : K) (v : V) (flag : Option Flag) (replace : Bool) : InsertResult K V :=
  if s.key = k then
    if replace then .Inserted (.S ⟨k, v⟩) (some (s.key, s.value))
    else .Found s.key s.value
  else
    match flag with
    | some f => liftToCnodeAndInsert hv (.S s) k v f
    | none =>
      if hv s.key = hv k then .Inserted (.L (LNode.new k v (.S s))) none
      else .Panicked

/-- The insert result while inside the compact child array of a CNode. -/
inductive InsertInResult (K V : Type) where
| Found (k : K) (v : V)
| Inserted (children : List (MNode K V)) (prev : Option (K × V))
| Panicked

mutual
/-- Modelled from the spec (mnode.rs is missing): insert dispatch over the
node sum.  The LNode arm is from src/node/lnode.rs; the SNode arm doubles
as the occupied-SNode-slot logic of the cnode insert of the spec. -/
def MNode.insert (hv : K → Nat) (n : MNode K V) (k : K) (v : V) (flag : Option Flag) (replace : Bool) : InsertResult K V :=
  match n with
  | .C c => CNode.insert hv c k v flag replace
  | .L l => l.insert hv k v flag replace
  | .S s => s.insert hv k v flag replace
/-- Modelled from the spec (cnode.rs is missing): an empty slot receives a
new SNode child in sorted position; an occupied slot recurses into the
child with the flag deepened by one level. -/
def CNode.insert (hv : K → Nat) (c : CNode K V) (k : K) (v : V) (flag : Option Flag) (replace : Bool) : InsertResult K V :=
  match c, flag with
  | _, none => .Panicked
  | .mk bitmap children _, some f =>
    let idx := sparseIndex bitmap (2 ^ f.index)
    if hasBit bitmap f.index then
      match CNode.insertIn hv children idx k v (Flag.newAtDepth f.hashValue (f.depth + 1)) replace with
      | .Found k0 v0 => .Found k0 v0
      | .Inserted children2 prev => .Inserted (.C (mkCNode bitmap children2)) prev
      | .Panicked => .Panicked
    else
      .Inserted (.C (mkCNode (bitmap + 2 ^ f.index) (listInsertAt children idx (.S ⟨k, v⟩)))) none
/-- Walks the compact child array to the addressed position, inserts into
the child there and rebuilds the array around the result. -/
def CNode.insertIn (hv : K → Nat) (children : List (MNode K V)) (i : Nat) (k : K) (v : V) (flag : Option Flag) (replace : Bool) : InsertInResult K V :=
  match children, i with
  | [], _ => .Panicked
  | c :: rest, 0 =>
    match MNode.insert hv c k v flag replace with
    | .Found k0 v0 => .Found k0 v0
    | .Inserted n prev => .Inserted (n :: rest) prev
    | .Panicked => .Panicked
  | c :: rest, j + 1 =>
    match CNode.insertIn hv rest j k v flag replace with
    | .Found k0 v0 => .Found k0 v0
    | .Inserted rest2 prev => .Inserted (c :: rest2) prev
    | .Panicked => .Panicked
end

/-- From src/hash_trie.rs: the trie owns a root node. -/
structure HashTrie (K V : Type) where
  root : MNode K V

/-- Modelled from the spec (the Default of mnode.rs is missing): the empty
root is a CNode with an empty bitmap. -/
def MNode.empty : MNode K V := .C (.mk 0 [] 0)

/-- From src/hash_trie.rs (HashTrie::new). -/
def HashTrie.new : HashTrie K V := ⟨MNode.empty⟩

/-- From src/hash_trie.rs (HashTrie::find): a flag at depth 0 for the hash
of the key; none is the NotFound error. -/
def HashTrie.find (hv : K → Nat) (t : HashTrie K V) (k : K) : Option (K × V) :=
  t.root.find k (some (Flag.new (hv k)))

/-- The outcome of HashTrie::insert: ok is the Ok pair of new trie and
previous entry, err is the Err carrying the live existing entry. -/
inductive TrieInsertResult (K V : Type) where
| ok (t : HashTrie K V) (prev : Option (K × V))
| err (k : K) (v : V)
| panicked

/-- From src/hash_trie.rs (HashTrie::insert): hashes the key, inserts at
the root with a depth-0 flag and rewraps the result as a new trie. -/
def HashTrie.insert (hv : K → Nat) (t : HashTrie K V) (k : K) (v : V) (replace : Bool) : TrieInsertResult K V :=
  match MNode.insert hv t.root k v (some (Flag.new (hv k))) replace with
  | .Found k0 v0 => .err k0 v0
  | .Inserted n prev => .ok ⟨n⟩ prev
  | .Panicked => .panicked

/-- The outcome of HashTrie::remove: the new trie plus the removed pair,
or the NotFound error (none). -/
def HashTrie.remove (hv : K → Nat) (t : HashTrie K V) (k : K) : Option (HashTrie K V × K × V) :=
  match t.root.remove k (some (Flag.new (hv k))) with
  | .NotFound => none
  | .Removed (some n) rk rv => some (⟨n⟩, rk, rv)
  | .Removed none rk rv => some (HashTrie.new, rk, rv)

/-- MapTransformResult with reduction carry R. -/
inductive TRes (V R : Type) where
| unchanged (r : R)
| transformed (v : V) (r : R)
| removed (r : R)

/-- LNodeTransformResult: a transformed chain is a shorter-or-equal chain
(L or S carrier), and Unchanged preserves sharing. -/
inductive LTRes (K V R : Type) where
| unchanged (r : R)
| chain (c : LNodeNext K V) (r : R)
| removed (r : R)

/-- MNodeTransformResult with the C/L/S carriers collapsed into one node
payload. -/
inductive NTRes (K V R : Type) where
| unchanged (r : R)
| node (n : MNode K V) (r : R)
| removed (r : R)

def NTRes.reduced {R : Type} : NTRes K V R → R
| .unchanged r => r
| .node _ r => r
| .removed r => r

def NTRes.isUnchanged {R : Type} : NTRes K V R → Bool
| .unchanged _ => true
| _ => false

/-- From src/node/lnode.rs (transform_result): combines the transform of
the head entry of a chain with the transformed tail, re-consing the head
(or its transformed value) and collapsing to an SNode when the tail was
removed. -/
def transformResult {R : Type} (l : LNode K V) (res : TRes V R) (nextRes : LTRes K V R) (rop : R → R → R) : LTRes K V R :=
  match l with
  | .mk key value next _ =>
    match res with
    | .unchanged lr =>
      match nextRes with
      | .unchanged rr => .unchanged (rop lr rr)
      | .chain (.L l2) rr => .chain (.L (LNode.new key value (.L l2))) (rop lr rr)
      | .chain (.S s2) rr => .chain (.L (LNode.new key value (.S s2))) (rop lr rr)
      | .removed rr => .chain (.S ⟨key, value⟩) (rop lr rr)
    | .transformed v lr =>
      match nextRes with
      | .unchanged rr => .chain (.L (LNode.new key v next)) (rop lr rr)
      | .chain (.L l2) rr => .chain (.L (LNode.new key v (.L l2))) (rop lr rr)
      | .chain (.S s2) rr => .chain (.L (LNode.new key v (.S s2))) (rop lr rr)
      | .removed rr => .chain (.S ⟨key, v⟩) (rop lr rr)
    | .removed lr =>
      match nextRes with
      | .unchanged rr => .chain next (rop lr rr)
      | .chain c rr => .chain c (rop lr rr)
      | .removed rr => .removed (rop lr rr)

/-- Modelled from the spec (snode.rs is missing): SNode::transform applies
the operation to the single entry. -/
def SNode.transform {R : Type} (s : SNode K V) (op : K → V → TRes V R) : LTRes K V R :=
  match op s.key s.value with
  | .unchanged r => .unchanged r
  | .transformed v r => .chain (.S ⟨s.key, v⟩) r
  | .removed r => .removed r

/-- From src/node/lnode.rs (lnode::transform): transforms the tail first,
then merges the head entry via transform_result. -/
def LNode.transform {R : Type} (l : LNode K V) (rop : R → R → R) (op : K → V → TRes V R) : LTRes K V R :=
  match l with
  | .mk key value next size =>
    let nextRes : LTRes K V R :=
      match next with
      | .L lnode => lnode.transform rop op
      | .S snode => snode.transform op
    transformResult (.mk key value next size) (op key value) nextRes rop

/-- The sum of the masks of kept slots. -/
def maskSum (kept : List (Nat × MNode K V)) : Nat :=
  kept.foldr (fun p a => 2 ^ p.1 + a) 0

/-- Modelled from the spec: reassembly of surviving children into a node,
applying the shape-rewrite rules: no child is Removed, a single S or L
child is bubbled up, anything else is a CNode with mask-sorted children. -/
def assembleSlots : List (Nat × MNode K V) → Option (MNode K V)
| [] => none
| [(i, n)] => if n.isLeafSL then some n else some (.C (mkCNode (2 ^ i) [n]))
| kept => some (.C (mkCNode (maskSum kept) (kept.map Prod.snd)))

/-- Pairs each surviving transform result with its slot, keeping the
original child for Unchanged results. -/
def transformKept {R : Type} : List Nat → List (MNode K V) → List (NTRes K V R) → List (Nat × MNode K V)
| i :: is, c :: cs, r :: rs =>
  match r with
  | .unchanged _ => (i, c) :: transformKept is cs rs
  | .node n _ => (i, n) :: transformKept is cs rs
  | .removed _ => transformKept is cs rs
| _, _, _ => []

mutual
/-- Modelled from the spec (mnode.rs and cnode.rs are missing): transform
dispatch; the CNode arm transforms every child, reduces left-to-right from
the default, stays Unchanged when every child is Unchanged, and otherwise
reassembles with the shape-rewrite rules.  The LNode arm is from
src/node/lnode.rs. -/
def MNode.transform {R : Type} (n : MNode K V) (r0 : R) (rop : R → R → R) (op : K → V → TRes V R) : NTRes K V R :=
  match n with
  | .C (.mk bitmap children _) =>
    let results := MNode.transformList children r0 rop op
    let total := results.foldl (fun acc r => rop acc r.reduced) r0
    if !results.isEmpty && results.all NTRes.isUnchanged then .unchanged total
    else
      match assembleSlots (transformKept (bitmapSlots bitmap) children results) with
      | none => .removed total
      | some n2 => .node n2 total
  | .L l =>
    match l.transform rop op with
    | .unchanged r => .unchanged r
    | .chain c r => .node c.toMNode r
    | .removed r => .removed r
  | .S s =>
    match s.transform op with
    | .unchanged r => .unchanged r
    | .chain c r => .node c.toMNode r
    | .removed r => .removed r
def MNode.transformList {R : Type} (children : List (MNode K V)) (r0 : R) (rop : R → R → R) (op : K → V → TRes V R) : List (NTRes K V R) :=
  match children with
  | [] => []
  | n :: rest => MNode.transform n r0 rop op :: MNode.transformList rest r0 rop op
end

/-- From src/hash_trie.rs (HashTrie::transform): an Unchanged root returns
a clone of the trie itself; a Removed root returns the empty trie. -/
def HashTrie.transform {R : Type} (t : HashTrie K V) (r0 : R) (rop : R → R → R) (op : K → V → TRes V R) : HashTrie K V × R :=
  match t.root.transform r0 rop op with
  | .unchanged r => (t, r)
  | .node n r => (⟨n⟩, r)
  | .removed r => (HashTrie.new, r)

/-- From src/node/lnode.rs (transmute_result, with the reduction carry
dropped): conses a transmuted head entry onto a transmuted tail. -/
def consTransmute : Option (K × V) → Option (LNodeNext K V) → Option (LNodeNext K V)
| some (k, v), some (.L l) => some (.L (LNode.new k v (.L l)))
| some (k, v), some (.S s) => some (.L (LNode.new k v (.S s)))
| some (k, v), none => some (.S ⟨k, v⟩)
| none, next => next

mutual
/-- From src/node/lnode.rs (lnode::transmute, reduction carry dropped):
transmutes the tail, then conses the transmuted head entry. -/
def LNode.transmuteChain (l : LNode K V) (op : K → V → Option (K × V)) : Option (LNodeNext K V) :=
  match l with
  | .mk key value next _ => consTransmute (op key value) (next.transmuteChain op)
def LNodeNext.transmuteChain (n : LNodeNext K V) (op : K → V → Option (K × V)) : Option (LNodeNext K V) :=
  match n with
  | .L l => l.transmuteChain op
  | .S s => (op s.key s.value).map (fun e => .S ⟨e.1, e.2⟩)
end

/-- Pairs each surviving transmuted child with its slot. -/
def transmuteKept : List Nat → List (Option (MNode K V)) → List (Nat × MNode K V)
| i :: is, r :: rs =>
  match r with
  | some n => (i, n) :: transmuteKept is rs
  | none => transmuteKept is rs
| _, _ => []

mutual
/-- Modelled from the spec (mnode.rs, cnode.rs, snode.rs are missing):
unary transmute dispatch with the reduction carry dropped; none stands for
Removed.  The LNode arm is from src/node/lnode.rs. -/
def MNode.transmute (n : MNode K V) (op : K → V → Option (K × V)) : Option (MNode K V) :=
  match n with
  | .C (.mk bitmap children _) =>
    assembleSlots (transmuteKept (bitmapSlots bitmap) (MNode.transmuteList children op))
  | .L l => (l.transmuteChain op).map LNodeNext.toMNode
  | .S s => (op s.key s.value).map (fun e => .S ⟨e.1, e.2⟩)
def MNode.transmuteList (children : List (MNode K V)) (op : K → V → Option (K × V)) : List (Option (MNode K V)) :=
  match children with
  | [] => []
  | n :: rest => MNode.transmute n op :: MNode.transmuteList rest op
end

/-- The result of a joint transmute: ok carries the produced node (none
standing for Removed); outOfFuel models non-termination of the gather loop
of joint_transmute_lnode; panicked models a Rust panic. -/
inductive JTR (K V : Type) where
| ok (n : Option (MNode K V))
| outOfFuel
| panicked

/-- The per-slot results of a pairwise CNode walk: the surviving children
with their slots, or a propagated failure. -/
inductive JTRL (K V : Type) where
| ok (kept : List (Nat × MNode K V))
| outOfFuel
| panicked

/-- Accumulates one per-slot result onto the results of the later slots. -/
def jtrlCons (i : Nat) (step : JTR K V) (rest : JTRL K V) : JTRL K V :=
  match step with
  | .outOfFuel => .outOfFuel
  | .panicked => .panicked
  | .ok none => rest
  | .ok (some n) =>
    match rest with
    | .ok kept => .ok ((i, n) :: kept)
    | e => e

/-- From src/node/lnode.rs (the gather loop of joint_transmute_lnode,
lines 230-243), with a fuel bound on the iteration count: the loop pushes
the entry behind the cursor and then resets the cursor to the head of the
right chain (the source assigns the chain head, not the advanced node, to
the cursor), so it only terminates when the next of the head is the
terminal SNode. -/
def gatherGo (right : LNode K V) (acc : List (K × V)) (r : LNode K V) : Nat → Option (List (K × V))
| 0 => none
| fuel + 1 =>
  match r.next with
  | .L lnode => gatherGo right (acc ++ [(lnode.key, lnode.value)]) right fuel
  | .S snode => some (acc ++ [(snode.key, snode.value)])

/-- The gather loop started on the head entry of the right chain. -/
def gatherRights (right : LNode K V) (fuel : Nat) : Option (List (K × V)) :=
  gatherGo right [(right.key, right.value)] right fuel

/-- Vec::swap_remove: the last element moves into the removed position. -/
def listSwapRemove (l : List α) (i : Nat) : List α :=
  match l.getLast? with
  | none => []
  | some last => (l.set i last).dropLast

/-- From src/node/lnode.rs (the position plus swap_remove idiom of
joint_transmute_lnode_impl): the first entry of the working set whose key
equals the argument, together with the set with that entry removed. -/
def takeMatch (k : K) (rights : List (K × V)) : Option ((K × V) × List (K × V)) :=
  match rights.findIdx? (fun e => decide (k = e.1)) with
  | none => none
  | some i =>
    match getIn rights i with
    | some e => some (e, listSwapRemove rights i)
    | none => none

/-- Modelled from the spec (snode.rs is missing):
snode::joint_transmute_values combines two entries known to share a hash.
Equal keys go to the both callback; differing keys are transmuted by their
respective unary callbacks and the survivors are chained. -/
def jointValues (k1 : K) (v1 : V) (k2 : K) (v2 : V)
    (b : K → V → K → V → Option (K × V)) (lop rop : K → V → Option (K × V)) : Option (LNodeNext K V) :=
  if k1 = k2 then (b k1 v1 k2 v2).map (fun e => .S ⟨e.1, e.2⟩)
  else
    match lop k1 v1, rop k2 v2 with
    | some e1, some e2 => some (.L (LNode.new e1.1 e1.2 (.S ⟨e2.1, e2.2⟩)))
    | some e1, none => some (.S ⟨e1.1, e1.2⟩)
    | none, some e2 => some (.S ⟨e2.1, e2.2⟩)
    | none, none => none

/-- From src/node/lnode.rs (joint_transmute_lnode_impl, reduction carry
dropped): walks the left chain deepest-first; each left entry is matched
by key against the working set (consuming the match) and goes to the both
or the left callback; the mutated working set is threaded back to the
caller. -/
def jtLLImpl (this : LNode K V) (rights : List (K × V))
    (b : K → V → K → V → Option (K × V)) (lop rop : K → V → Option (K × V)) : Option (LNodeNext K V) × List (K × V) :=
  match this with
  | .mk key value next _ =>
    let nr : Option (LNodeNext K V) × List (K × V) :=
      match next with
      | .L lnode => jtLLImpl lnode rights b lop rop
      | .S snode =>
        match takeMatch snode.key rights with
        | some (rkv, rest) => (jointValues snode.key snode.value rkv.1 rkv.2 b lop rop, rest)
        | none => ((lop snode.key snode.value).map (fun e => .S ⟨e.1, e.2⟩), rights)
    let tr : Option (K × V) × List (K × V) :=
      match takeMatch key nr.2 with
      | some (rkv, rest) => (b key value rkv.1 rkv.2, rest)
      | none => (lop key value, nr.2)
    (consTransmute tr.1 nr.1, tr.2)

/-- From src/node/lnode.rs (joint_transmute_lnode, reduction carry
dropped): equal chain hashes gather the right chain into a working set
(outOfFuel when the gather loop fails to terminate), walk the left chain
against it and cons the remaining right entries on afterwards; differing
hashes transmute both chains independently, unwrap flags at the current
depth (a panic when the depth is past the hash width) and combine the
survivors through cnode::lift_to_cnode_and_insert. -/
def jtLL (hv : K → Nat) (this right : LNode K V)
    (b : K → V → K → V → Option (K × V)) (lop rop : K → V → Option (K × V)) (depth fuel : Nat) : JTR K V :=
  let thisHash := hv this.key
  let rightHash := hv right.key
  if thisHash = rightHash then
    match gatherRights right fuel with
    | none => .outOfFuel
    | some rights =>
      let nr := jtLLImpl this rights b lop rop
      let final := nr.2.foldl (fun next rkv => consTransmute (rop rkv.1 rkv.2) next) nr.1
      .ok (final.map LNodeNext.toMNode)
  else
    match Flag.newAtDepth thisHash depth, Flag.newAtDepth rightHash depth with
    | some _, some _ =>
      match this.transmuteChain lop, right.transmuteChain rop with
      | some a, some c => .ok (some (.C (cnodeLift a.toMNode thisHash c.toMNode rightHash depth)))
      | some a, none => .ok (some a.toMNode)
      | none, some c => .ok (some c.toMNode)
      | none, none => .ok none
    | _, _ => .panicked

/-- From src/node/lnode.rs (joint_transmute_snode_impl, reduction carry
dropped): walks the left chain; the entry whose key equals the singleton
goes to the both callback with the rest of the chain left-transmuted,
while the terminal pairing falls through to joint_transmute_values. -/
def jtLSImpl (this : LNode K V) (right : SNode K V)
    (b : K → V → K → V → Option (K × V)) (lop rop : K → V → Option (K × V)) : Option (LNodeNext K V) :=
  match this with
  | .mk key value next _ =>
    if key = right.key then
      consTransmute (b key value right.key right.value) (next.transmuteChain lop)
    else
      let nr : Option (LNodeNext K V) :=
        match next with
        | .L lnode => jtLSImpl lnode right b lop rop
        | .S snode => jointValues snode.key snode.value right.key right.value b lop rop
      consTransmute (lop key value) nr

/-- From src/node/lnode.rs (joint_transmute_snode, reduction carry
dropped): equal hashes walk the chain against the singleton; differing
hashes transmute both sides, unwrap flags at the current depth (a panic
when the depth is past the hash width) and combine the survivors. -/
def jtLS (hv : K → Nat) (this : LNode K V) (right : SNode K V)
    (b : K → V → K → V → Option (K × V)) (lop rop : K → V → Option (K × V)) (depth : Nat) : JTR K V :=
  let thisHash := hv this.key
  let rightHash := hv right.key
  if thisHash = rightHash then
    .ok ((jtLSImpl this right b lop rop).map LNodeNext.toMNode)
  else
    match Flag.newAtDepth thisHash depth, Flag.newAtDepth rightHash depth with
    | some _, some _ =>
      match this.transmuteChain lop, rop right.key right.value with
      | some a, some e => .ok (some (.C (cnodeLift a.toMNode thisHash (.S ⟨e.1, e.2⟩) rightHash depth)))
      | some a, none => .ok (some a.toMNode)
      | none, some e => .ok (some (.S ⟨e.1, e.2⟩))
      | none, none => .ok none
    | _, _ => .panicked

/-- Modelled from the spec (snode.rs is missing): the singleton-versus-
singleton case of the joint walk; equal hashes go to
joint_transmute_values, differing hashes transmute both sides and combine
the survivors at the current depth. -/
def jtSS (hv : K → Nat) (s1 s2 : SNode K V)
    (b : K → V → K → V → Option (K × V)) (lop rop : K → V → Option (K × V)) (depth : Nat) : JTR K V :=
  let h1 := hv s1.key
  let h2 := hv s2.key
  if h1 = h2 then
    .ok ((jointValues s1.key s1.value s2.key s2.value b lop rop).map LNodeNext.toMNode)
  else
    match Flag.newAtDepth h1 depth, Flag.newAtDepth h2 depth with
    | some _, some _ =>
      match lop s1.key s1.value, rop s2.key s2.value with
      | some e1, some e2 => .ok (some (.C (cnodeLift (.S ⟨e1.1, e1.2⟩) h1 (.S ⟨e2.1, e2.2⟩) h2 depth)))
      | some e1, none => .ok (some (.S ⟨e1.1, e1.2⟩))
      | none, some e2 => .ok (some (.S ⟨e2.1, e2.2⟩))
      | none, none => .ok none
    | _, _ => .panicked

/-- The child of a CNode occupying a slot, if any. -/
def childAt (bitmap : Nat) (children : List (MNode K V)) (slot : Nat) : Option (MNode K V) :=
  if hasBit bitmap slot then getIn children (sparseIndex bitmap (2 ^ slot)) else none

omit [DecidableEq K] [DecidableEq V] in
theorem tsize_getIn {l : List (MNode K V)} {i : Nat} {c : MNode K V}
    (h : getIn l i = some c) : MNode.tsize c ≤ MNode.tsizeList l := by
  induction l generalizing i with
  | nil => simp [getIn] at h
  | cons x xs ih =>
    cases i with
    | zero =>
      simp [getIn] at h
      subst h
      simp [MNode.tsizeList]
    | succ j =>
      simp [getIn] at h
      have := ih h
      simp [MNode.tsizeList]
      omega

omit [DecidableEq K] [DecidableEq V] in
theorem tsize_childAt {bm : Nat} {ch : List (MNode K V)} {i : Nat} {c : MNode K V}
    (h : childAt bm ch i = some c) : MNode.tsize c ≤ MNode.tsizeList ch := by
  unfold childAt at h
  split at h
  · exact tsize_getIn h
  · simp at h

omit [DecidableEq K] [DecidableEq V] in
theorem tsize_C (c : CNode K V) : MNode.tsize (.C c) = 1 + MNode.tsizeList c.children := by
  cases c
  rfl

omit [DecidableEq K] [DecidableEq V] in
theorem tsize_L (l : LNode K V) : MNode.tsize (.L l) = 1 := rfl

omit [DecidableEq K] [DecidableEq V] in
theorem tsize_S (s : SNode K V) : MNode.tsize (.S s) = 1 := rfl

/-- Swaps the argument order of the both callback. -/
def swapBoth (b : K → V → K → V → Option (K × V)) : K → V → K → V → Option (K × V) :=
  fun k v l w => b l w k v

mutual
/-- The joint-transmute dispatch.  The rows with an LNode or SNode on the
left and a CNode on the right are from src/node/lnode.rs
(lnode::joint_transmute, line 201: the operands are swapped into the
CNode-side walker together with swapped callbacks); the rows starting from
a CNode or an SNode are modelled from the spec (cnode.rs and mnode.rs and
snode.rs are missing), using the same canonicalization. -/
def MNode.jt (hv : K → Nat) (n1 n2 : MNode K V)
    (b : K → V → K → V → Option (K × V)) (lop rop : K → V → Option (K × V)) (depth fuel : Nat) : JTR K V :=
  match n1, n2 with
  | .C c1, .C c2 => cjtc hv c1 c2 b lop rop depth fuel
  | .C c1, .L l2 => cjtleaf hv c1 (.L l2) (hv l2.key) b lop rop depth fuel
  | .C c1, .S s2 => cjtleaf hv c1 (.S s2) (hv s2.key) b lop rop depth fuel
  | .L l1, .C c2 => cjtleaf hv c2 (.L l1) (hv l1.key) (swapBoth b) rop lop depth fuel
  | .L l1, .L l2 => jtLL hv l1 l2 b lop rop depth fuel
  | .L l1, .S s2 => jtLS hv l1 s2 b lop rop depth
  | .S s1, .C c2 => cjtleaf hv c2 (.S s1) (hv s1.key) (swapBoth b) rop lop depth fuel
  | .S s1, .L l2 => jtLS hv l2 s1 (swapBoth b) rop lop depth
  | .S s1, .S s2 => jtSS hv s1 s2 b lop rop depth
termination_by 16 * (n1.tsize + n2.tsize) + 10
decreasing_by
  all_goals simp only [tsize_C, tsize_L, tsize_S]
  all_goals omega
/-- Modelled from the spec (cnode.rs is missing): the CNode-versus-CNode
joint walk dispatches every slot and reassembles the survivors. -/
def cjtc (hv : K → Nat) (c1 c2 : CNode K V)
    (b : K → V → K → V → Option (K × V)) (lop rop : K → V → Option (K × V)) (depth fuel : Nat) : JTR K V :=
  match cjtcSlots hv c1.bitmap c1.children c2.bitmap c2.children b lop rop depth fuel [0, 1, 2, 3] with
  | .ok kept => .ok (assembleSlots kept)
  | .outOfFuel => .outOfFuel
  | .panicked => .panicked
termination_by 16 * (MNode.tsize (.C c1) + MNode.tsize (.C c2)) + 5
decreasing_by
  rw [tsize_C c1, tsize_C c2]
  simp only [List.length]
  omega
/-- Modelled from the spec: the slot walk of the CNode-versus-CNode case;
a slot present on one side only is transmuted with its unary callback,
a slot present on both sides recurses one level deeper. -/
def cjtcSlots (hv : K → Nat) (b1 : Nat) (ch1 : List (MNode K V)) (b2 : Nat) (ch2 : List (MNode K V))
    (b : K → V → K → V → Option (K × V)) (lop rop : K → V → Option (K × V)) (depth fuel : Nat)
    (slots : List Nat) : JTRL K V :=
  match slots with
  | [] => .ok []
  | i :: rest =>
    let step : JTR K V :=
      match h1 : childAt b1 ch1 i, h2 : childAt b2 ch2 i with
      | none, none => .ok none
      | some ca, none => .ok (ca.transmute lop)
      | none, some cb => .ok (cb.transmute rop)
      | some ca, some cb => MNode.jt hv ca cb b lop rop (depth + 1) fuel
    jtrlCons i step (cjtcSlots hv b1 ch1 b2 ch2 b lop rop depth fuel rest)
termination_by 16 * (2 + MNode.tsizeList ch1 + MNode.tsizeList ch2) + slots.length
decreasing_by
  · have i1 := tsize_childAt h1
    have i2 := tsize_childAt h2
    simp only [MNode.tsize] at *
    omega
  · simp only [List.length]
    omega
/-- Modelled from the spec (cnode.rs is missing): the CNode-versus-leaf
joint walk; the slot matching the flag of the leaf at this depth recurses
(or receives the right-transmuted leaf when empty), every other occupied
slot is left-transmuted. -/
def cjtleaf (hv : K → Nat) (c : CNode K V) (leafM : MNode K V) (leafHash : Nat)
    (b : K → V → K → V → Option (K × V)) (lop rop : K → V → Option (K × V)) (depth fuel : Nat) : JTR K V :=
  match cjtleafSlots hv c.bitmap c.children leafM leafHash b lop rop depth fuel [0, 1, 2, 3] with
  | .ok kept => .ok (assembleSlots kept)
  | .outOfFuel => .outOfFuel
  | .panicked => .panicked
termination_by 16 * (MNode.tsize (.C c) + leafM.tsize) + 5
decreasing_by
  rw [tsize_C c]
  simp only [List.length]
  omega
/-- Modelled from the spec: the slot walk of the CNode-versus-leaf case. -/
def cjtleafSlots (hv : K → Nat) (bm : Nat) (ch : List (MNode K V)) (leafM : MNode K V) (leafHash : Nat)
    (b : K → V → K → V → Option (K × V)) (lop rop : K → V → Option (K × V)) (depth fuel : Nat)
    (slots : List Nat) : JTRL K V :=
  match slots with
  | [] => .ok []
  | i :: rest =>
    let step : JTR K V :=
      if i = flagIndex leafHash depth then
        match h1 : childAt bm ch i with
        | some ca => MNode.jt hv ca leafM b lop rop (depth + 1) fuel
        | none => .ok (leafM.transmute rop)
      else
        match childAt bm ch i with
        | some ca => .ok (ca.transmute lop)
        | none => .ok none
    jtrlCons i step (cjtleafSlots hv bm ch leafM leafHash b lop rop depth fuel rest)
termination_by 16 * (1 + MNode.tsizeList ch + leafM.tsize) + slots.length
decreasing_by
  · have i1 := tsize_childAt h1
    omega
  · simp only [List.length]
    omega
end

/-- The outcome of HashTrie::joint_transmute. -/
inductive TrieJTResult (K V : Type) where
| ok (t : HashTrie K V)
| outOfFuel
| panicked

/-- True when the hash h agrees with the anchor on every 2-bit group below
the depth d. -/
def agreesBelow (h anchor d : Nat) : Bool := h % 4 ^ d == anchor % 4 ^ d

mutual
/-- Well-formedness of a node sitting at a given depth whose keys must
hash compatibly with the anchor below that depth: hashes fit in 8 bits and
agree with the position, collision chains are hash-uniform with pairwise
distinct keys, and CNode children sit at the slots of the bitmap. -/
def MNode.wf (hv : K → Nat) : MNode K V → Nat → Nat → Bool
| .C (.mk bitmap children _), d, anchor =>
    decide (d < 4) && decide (bitmap < 16) &&
    (d == 0 || decide (2 ≤ children.length) ||
      (match children with | [.C _] => true | _ => false)) &&
    MNode.wfChildren hv (bitmapSlots bitmap) children d anchor
| .L l, d, anchor =>
    agreesBelow (hv l.key) anchor d && decide (hv l.key < 256) &&
    l.entries.all (fun e => hv e.1 == hv l.key) &&
    decide ((l.entries.map Prod.fst).Nodup)
| .S s, d, anchor => agreesBelow (hv s.key) anchor d && decide (hv s.key < 256)
/-- The children of a CNode at depth d, paired with their slots, each
well-formed one level deeper with the slot bits appended to the anchor. -/
def MNode.wfChildren (hv : K → Nat) : List Nat → List (MNode K V) → Nat → Nat → Bool
| [], [], _, _ => true
| i :: is, c :: cs, d, anchor =>
    MNode.wf hv c (d + 1) (anchor % 4 ^ d + i * 4 ^ d) && MNode.wfChildren hv is cs d anchor
| _, _, _, _ => false
end

/-- Well-formedness of a trie: the root is well-formed at depth 0. -/
def HashTrie.wf (hv : K → Nat) (t : HashTrie K V) : Bool := t.root.wf hv 0 0

/-- From src/hash_trie.rs (HashTrie::joint_transmute): walks the two roots
jointly from depth 0 and rewraps the produced node (the empty trie for a
Removed result). -/
def HashTrie.jt (hv : K → Nat) (t1 t2 : HashTrie K V)
    (b : K → V → K → V → Option (K × V)) (lop rop : K → V → Option (K × V)) (fuel : Nat) : TrieJTResult K V :=
  match MNode.jt hv t1.root t2.root b lop rop 0 fuel with
  | .ok (some n) => .ok ⟨n⟩
  | .ok none => .ok HashTrie.new
  | .outOfFuel => .outOfFuel
  | .panicked => .panicked

/-! Basic lemmas about chains and cached sizes. -/

mutual
/-- The cached size fields of a chain all equal the entry counts of their
suffixes. -/
def LNode.sizesOk : LNode K V → Prop
| .mk k v next s => s = ((k, v) :: next.entries).length ∧ next.sizesOk
def LNodeNext.sizesOk : LNodeNext K V → Prop
| .L l => l.sizesOk
| .S _ => True
end

omit [DecidableEq K] [DecidableEq V] in
theorem entries_new (k : K) (v : V) (next : LNodeNext K V) :
    (LNode.new k v next).entries = (k, v) :: next.entries := rfl

omit [DecidableEq K] [DecidableEq V] in
theorem entries_ne_nil (next : LNodeNext K V) : next.entries ≠ [] := by
  cases next with
  | L l => cases l with | mk k v n s => simp [LNodeNext.entries, LNode.entries]
  | S s => simp [LNodeNext.entries]

omit [DecidableEq K] [DecidableEq V] in
theorem one_le_entries (next : LNodeNext K V) : 1 ≤ next.entries.length := by
  have := entries_ne_nil next
  cases h : next.entries with
  | nil => exact absurd h this
  | cons a l => simp

omit [DecidableEq K] [DecidableEq V] in
theorem two_le_entries (l : LNode K V) : 2 ≤ l.entries.length := by
  cases l with
  | mk k v next s =>
    have := one_le_entries next
    simp [LNode.entries]
    omega

omit [DecidableEq K] [DecidableEq V] in
theorem sizesOk_size {l : LNode K V} (h : l.sizesOk) : l.size = l.entries.length := by
  cases l with
  | mk k v next s =>
    simp [LNode.sizesOk] at h
    simp [LNode.size, LNode.entries, h.1]

omit [DecidableEq K] [DecidableEq V] in
theorem sizesOk_new {next : LNodeNext K V} (h : next.sizesOk) (k : K) (v : V) :
    (LNode.new k v next).sizesOk := by
  cases next with
  | L l =>
    have hs : l.size = l.entries.length := sizesOk_size (by simpa [LNodeNext.sizesOk] using h)
    simp [LNode.new, LNode.sizesOk, LNodeNext.entries, hs]
    exact ⟨by omega, by simpa [LNodeNext.sizesOk] using h⟩
  | S s =>
    simp [LNode.new, LNode.sizesOk, LNodeNext.entries, LNodeNext.sizesOk]

theorem remove_notFound_iff (l : LNode K V) (k : K) :
    removeFromLNode l k = .NotFound ↔ (∀ e ∈ l.entries, e.1 ≠ k) := by
  cases l with
  | mk key value next s =>
    by_cases hk : key = k
    · constructor
      · intro h
        cases next <;> simp [removeFromLNode, hk] at h
      · intro h
        exact absurd hk (by simpa using h (key, value) (by simp [LNode.entries]))
    · cases next with
      | L lnode =>
        have ih := remove_notFound_iff lnode k
        constructor
        · intro h e he
          simp [LNode.entries, LNodeNext.entries] at he
          rcases he with he | he
          · simp [he, hk]
          · simp [removeFromLNode, hk] at h
            rcases hrec : removeFromLNode lnode k with _ | ⟨l2, rk, rv⟩ | ⟨s2, rk, rv⟩ <;>
              rw [hrec] at h
            · exact (ih.mp hrec) e he
            · simp at h
            · simp at h
        · intro h
          have : removeFromLNode lnode k = .NotFound := by
            apply ih.mpr
            intro e he
            exact h e (by simp [LNode.entries, LNodeNext.entries, he])
          simp [removeFromLNode, hk, this]
      | S snode =>
        by_cases hs : snode.key = k
        · constructor
          · intro h
            simp [removeFromLNode, hk, SNode.remove, hs] at h
          · intro h
            have hm : (snode.key, snode.value) ∈ (LNode.mk key value (LNodeNext.S snode) s).entries := by
              simp [LNode.entries, LNodeNext.entries]
            exact absurd hs (by simpa using h _ hm)
        · constructor
          · intro h e he
            simp [LNode.entries, LNodeNext.entries] at he
            rcases he with he | he
            · simp [he, hk]
            · simp [he, hs]
          · intro h
            simp [removeFromLNode, hk, SNode.remove, hs]

/-- The scan of LNode::find is the first-match search over the entry list. -/
theorem find_eq_findEntry (l : LNode K V) (k : K) :
    l.find k = l.entries.find? (fun e => decide (e.1 = k)) := by
  cases l with
  | mk key value next s =>
    by_cases hk : key = k
    · simp [LNode.find, LNode.entries, List.find?, hk]
    · cases next with
      | L lnode =>
        have ih := find_eq_findEntry lnode k
        simp [LNode.find, LNode.entries, LNodeNext.find, LNodeNext.entries, List.find?, hk, ih]
      | S snode =>
        by_cases hs : snode.key = k <;>
          simp [LNode.find, LNode.entries, LNodeNext.find, LNodeNext.entries, SNode.find,
            List.find?, hk, hs]

/-- Full characterization of remove_from_lnode on a match: the removed
pair is the first entry whose key equals the argument, the remaining chain
is the entry list with that first match erased, and correct cached sizes
are preserved. -/
theorem remove_removed_spec (l : LNode K V) (k : K) :
    (∀ l2 rk rv, removeFromLNode l k = .RemovedL l2 rk rv →
      l.entries.find? (fun e => decide (e.1 = k)) = some (rk, rv) ∧
      l2.entries = l.entries.eraseP (fun e => decide (e.1 = k)) ∧ (l.sizesOk → l2.sizesOk)) ∧
    (∀ s2 rk rv, removeFromLNode l k = .RemovedS s2 rk rv →
      l.entries.find? (fun e => decide (e.1 = k)) = some (rk, rv) ∧
      [(s2.key, s2.value)] = l.entries.eraseP (fun e => decide (e.1 = k))) := by
  cases l with
  | mk key value next s =>
    by_cases hk : key = k
    · constructor
      · intro l2 rk rv h
        cases next with
        | L lnode =>
          simp [removeFromLNode, hk] at h
          rcases h with ⟨h1, h2, h3⟩
          subst h1; subst h2; subst h3
          refine ⟨by simp [LNode.entries, List.find?, hk], ?_, ?_⟩
          · simp [LNode.entries, List.eraseP, hk, LNodeNext.entries]
          · intro hs
            simp [LNode.sizesOk, LNodeNext.sizesOk] at hs
            exact hs.2
        | S snode => simp [removeFromLNode, hk] at h
      · intro s2 rk rv h
        cases next with
        | L lnode => simp [removeFromLNode, hk] at h
        | S snode =>
          simp [removeFromLNode, hk] at h
          rcases h with ⟨h1, h2, h3⟩
          subst h1; subst h2; subst h3
          refine ⟨by simp [LNode.entries, List.find?, hk], ?_⟩
          simp [LNode.entries, List.eraseP, hk, LNodeNext.entries]
    · cases next with
      | L lnode =>
        have ih := remove_removed_spec lnode k
        constructor
        · intro l2 rk rv h
          simp only [removeFromLNode, hk, if_false] at h
          rcases hrec : removeFromLNode lnode k with _ | ⟨l2i, rki, rvi⟩ | ⟨s2i, rki, rvi⟩ <;>
            rw [hrec] at h
          · simp at h
          · simp at h
            rcases h with ⟨h1, h2, h3⟩
            have spec := (ih.1 l2i rki rvi hrec)
            subst h2; subst h3
            refine ⟨?_, ?_, ?_⟩
            · simp [LNode.entries, List.find?, hk, LNodeNext.entries, spec.1]
            · rw [← h1, entries_new]
              simp [LNodeNext.entries, spec.2.1, LNode.entries, List.eraseP_cons, hk]
            · intro hs
              rw [← h1]
              simp [LNode.sizesOk, LNodeNext.sizesOk] at hs
              exact sizesOk_new (by simpa [LNodeNext.sizesOk] using spec.2.2 hs.2) key value
          · simp at h
            rcases h with ⟨h1, h2, h3⟩
            have spec := (ih.2 s2i rki rvi hrec)
            subst h2; subst h3
            refine ⟨?_, ?_, ?_⟩
            · simp [LNode.entries, List.find?, hk, LNodeNext.entries, spec.1]
            · rw [← h1, entries_new]
              simp [LNodeNext.entries, LNode.entries, List.eraseP_cons, hk, ← spec.2]
            · intro hs
              rw [← h1]
              exact sizesOk_new (by simp [LNodeNext.sizesOk]) key value
        · intro s2 rk rv h
          simp only [removeFromLNode, hk, if_false] at h
          rcases hrec : removeFromLNode lnode k with _ | ⟨l2i, rki, rvi⟩ | ⟨s2i, rki, rvi⟩ <;>
            rw [hrec] at h <;> simp at h
      | S snode =>
        by_cases hs : snode.key = k
        · constructor
          · intro l2 rk rv h
            simp [removeFromLNode, hk, SNode.remove, hs] at h
          · intro s2 rk rv h
            simp [removeFromLNode, hk, SNode.remove, hs] at h
            rcases h with ⟨h1, h2, h3⟩
            subst h2; subst h3
            refine ⟨?_, ?_⟩
            · simp [LNode.entries, List.find?, hk, LNodeNext.entries, hs]
            · rw [← h1]
              simp [LNode.entries, List.eraseP, hk, LNodeNext.entries, hs]
        · constructor
          · intro l2 rk rv h
            simp [removeFromLNode, hk, SNode.remove, hs] at h
          · intro s2 rk rv h
            simp [removeFromLNode, hk, SNode.remove, hs] at h

/-- Correct cached sizes for an optional chain (none is an empty result). -/
def chainOkO : Option (LNodeNext K V) → Prop
| some c => c.sizesOk
| none => True

/-- Correct cached sizes for a chain transform result. -/
def LTRes.chainOk {R : Type} : LTRes K V R → Prop
| .chain c _ => c.sizesOk
| _ => True

omit [DecidableEq K] [DecidableEq V] in
theorem consTransmute_sizesOk {e : Option (K × V)} {next : Option (LNodeNext K V)}
    (h : chainOkO next) : chainOkO (consTransmute e next) := by
  match e, next with
  | none, next => simpa [consTransmute]
  | some (k, v), none => simp [consTransmute, chainOkO, LNodeNext.sizesOk]
  | some (k, v), some (.L l) =>
    simp [chainOkO, LNodeNext.sizesOk] at h
    simpa [consTransmute, chainOkO, LNodeNext.sizesOk] using
      sizesOk_new (show LNodeNext.sizesOk (.L l) by simpa [LNodeNext.sizesOk]) k v
  | some (k, v), some (.S s) =>
    simpa [consTransmute, chainOkO, LNodeNext.sizesOk] using
      sizesOk_new (show LNodeNext.sizesOk (.S s) by simp [LNodeNext.sizesOk]) k v

theorem insert_sizesOk {hv : K → Nat} {l : LNode K V} {k : K} {v : V} {flag : Option Flag}
    {rep : Bool} {l2 : LNode K V} {prev : Option (K × V)} (hok : l.sizesOk)
    (h : LNode.insert hv l k v flag rep = .Inserted (.L l2) prev) : l2.sizesOk := by
  unfold LNode.insert at h
  rcases hf : l.find k with _ | ⟨k0, v0⟩ <;> rw [hf] at h
  · rcases flag with _ | f
    · simp at h
    · simp only [liftToCnodeAndInsert] at h
      split at h
      · simp at h
        rcases h with ⟨h1, _⟩
        rw [← h1]
        exact sizesOk_new (by simpa [LNodeNext.sizesOk]) k v
      · split at h <;> simp at h
  · simp only at h
    split at h
    · rcases hr : removeFromLNode l k with _ | ⟨l2i, rk, rv⟩ | ⟨s2i, rk, rv⟩ <;> rw [hr] at h
      · simp at h
      · simp at h
        rcases h with ⟨h1, _⟩
        rw [← h1]
        exact sizesOk_new (by simpa [LNodeNext.sizesOk] using
          ((remove_removed_spec l k).1 l2i rk rv hr).2.2 hok) k v
      · simp at h
        rcases h with ⟨h1, _⟩
        rw [← h1]
        exact sizesOk_new (by simp [LNodeNext.sizesOk]) k v
    · simp at h

omit [DecidableEq K] [DecidableEq V] in
theorem transformResult_sizesOk {R : Type} {l : LNode K V} (res : TRes V R)
    {nextRes : LTRes K V R} (rop : R → R → R) (hok : l.sizesOk) (hn : nextRes.chainOk) :
    (transformResult l res nextRes rop).chainOk := by
  cases l with
  | mk key value next s =>
    have hnext : next.sizesOk := by
      simp [LNode.sizesOk] at hok
      exact hok.2
    cases res with
    | unchanged lr =>
      cases nextRes with
      | unchanged rr => simp [transformResult, LTRes.chainOk]
      | chain c rr =>
        cases c with
        | L l2 =>
          simp [LTRes.chainOk, LNodeNext.sizesOk] at hn
          simpa [transformResult, LTRes.chainOk, LNodeNext.sizesOk] using
            sizesOk_new (show LNodeNext.sizesOk (.L l2) by simpa [LNodeNext.sizesOk]) key value
        | S s2 =>
          simpa [transformResult, LTRes.chainOk, LNodeNext.sizesOk] using
            sizesOk_new (show LNodeNext.sizesOk (.S s2) by simp [LNodeNext.sizesOk]) key value
      | removed rr => simp [transformResult, LTRes.chainOk, LNodeNext.sizesOk]
    | transformed v lr =>
      cases nextRes with
      | unchanged rr =>
        simpa [transformResult, LTRes.chainOk, LNodeNext.sizesOk] using
          sizesOk_new hnext key v
      | chain c rr =>
        cases c with
        | L l2 =>
          simp [LTRes.chainOk, LNodeNext.sizesOk] at hn
          simpa [transformResult, LTRes.chainOk, LNodeNext.sizesOk] using
            sizesOk_new (show LNodeNext.sizesOk (.L l2) by simpa [LNodeNext.sizesOk]) key v
        | S s2 =>
          simpa [transformResult, LTRes.chainOk, LNodeNext.sizesOk] using
            sizesOk_new (show LNodeNext.sizesOk (.S s2) by simp [LNodeNext.sizesOk]) key v
      | removed rr => simp [transformResult, LTRes.chainOk, LNodeNext.sizesOk]
    | removed lr =>
      cases nextRes with
      | unchanged rr =>
        cases next with
        | L l2 =>
          simp [LNodeNext.sizesOk] at hnext
          simpa [transformResult, LTRes.chainOk, LNodeNext.sizesOk]
        | S s2 => simp [transformResult, LTRes.chainOk, LNodeNext.sizesOk]
      | chain c rr => simpa [transformResult, LTRes.chainOk]
      | removed rr => simp [transformResult, LTRes.chainOk]

omit [DecidableEq K] [DecidableEq V] in
theorem transform_sizesOk {R : Type} (rop : R → R → R) (op : K → V → TRes V R)
    (l : LNode K V) (hok : l.sizesOk) : (l.transform rop op).chainOk := by
  cases l with
  | mk key value next s =>
    have hnext : next.sizesOk := by
      simp [LNode.sizesOk] at hok
      exact hok.2
    cases next with
    | L lnode =>
      have hn := transform_sizesOk rop op lnode
        (by simpa [LNodeNext.sizesOk] using hnext)
      have hres := transformResult_sizesOk (op key value) rop hok hn
      simpa [LNode.transform] using hres
    | S snode =>
      have hn : (SNode.transform snode op).chainOk := by
        unfold SNode.transform
        rcases op snode.key snode.value with r | ⟨v, r⟩ | r <;>
          simp [LTRes.chainOk, LNodeNext.sizesOk]
      have hres := transformResult_sizesOk (op key value) rop hok hn
      simpa [LNode.transform] using hres

/-- C6: remove_from_lnode returns NotFound exactly when no entry key
equals the argument; on a match (the first entry whose key equals the
argument, whose key and value are returned) it returns a shorter LNode
when at least two entries remain (three or more before the removal) and
an SNode when exactly one remains (two before the removal). -/
theorem claim_C6 (l : LNode K V) (k : K) :
    (removeFromLNode l k = .NotFound ↔ ∀ e ∈ l.entries, e.1 ≠ k) ∧
    (∀ rk rv, l.entries.find? (fun e => decide (e.1 = k)) = some (rk, rv) →
      (3 ≤ l.entries.length →
        ∃ l2, removeFromLNode l k = .RemovedL l2 rk rv ∧
          l2.entries.length = l.entries.length - 1) ∧
      (l.entries.length = 2 → ∃ s2, removeFromLNode l k = .RemovedS s2 rk rv)) := by
  refine ⟨remove_notFound_iff l k, ?_⟩
  intro rk rv hfind
  have hmem : (rk, rv) ∈ l.entries := List.mem_of_find?_eq_some hfind
  have hpred : rk = k := by simpa using List.find?_some hfind
  have hnnf : removeFromLNode l k ≠ .NotFound := by
    intro hnf
    exact absurd hpred (by simpa using (remove_notFound_iff l k).mp hnf (rk, rv) hmem)
  have hlen : (l.entries.eraseP (fun e => decide (e.1 = k))).length = l.entries.length - 1 :=
    List.length_eraseP_of_mem hmem (by simpa)
  rcases hr : removeFromLNode l k with _ | ⟨l2, rk2, rv2⟩ | ⟨s2, rk2, rv2⟩
  · exact absurd hr hnnf
  · have spec := (remove_removed_spec l k).1 l2 rk2 rv2 hr
    have hkv : rk2 = rk ∧ rv2 = rv := by
      have := spec.1.symm.trans hfind
      exact ⟨congrArg Prod.fst (Option.some.inj this), congrArg Prod.snd (Option.some.inj this)⟩
    constructor
    · intro _
      exact ⟨l2, by rw [hkv.1, hkv.2], by rw [spec.2.1, hlen]⟩
    · intro h2
      have := two_le_entries l2
      rw [spec.2.1, hlen, h2] at this
      omega
  · have spec := (remove_removed_spec l k).2 s2 rk2 rv2 hr
    have hkv : rk2 = rk ∧ rv2 = rv := by
      have := spec.1.symm.trans hfind
      exact ⟨congrArg Prod.fst (Option.some.inj this), congrArg Prod.snd (Option.some.inj this)⟩
    constructor
    · intro h3
      have : ([(s2.key, s2.value)] : List (K × V)).length = l.entries.length - 1 := by
        rw [spec.2, hlen]
      simp at this
      omega
    · intro _
      exact ⟨s2, by rw [hkv.1, hkv.2]⟩

/-- Witness for C6 at a concrete three-entry chain with keys 3, 2, 1:
removing 2 yields a two-entry LNode. -/
theorem claim_C6_witness :
    (∃ l2, removeFromLNode (LNode.new 3 300 (.L (LNode.new 2 200 (.S ⟨1, 100⟩)))) (2 : Nat) =
        .RemovedL l2 2 (200 : Nat) ∧ l2.entries.length = 2) ∧
    removeFromLNode (LNode.new 3 300 (.L (LNode.new 2 200 (.S ⟨1, 100⟩)))) (7 : Nat) = .NotFound := by
  constructor
  · have h := (claim_C6 (LNode.new 3 300 (.L (LNode.new 2 200 (.S ⟨1, 100⟩)))) 2).2 2 200
      (by rfl) |>.1 (by rfl)
    rcases h with ⟨l2, h1, h2⟩
    exact ⟨l2, h1, by rw [h2]; rfl⟩
  · exact (claim_C6 (LNode.new 3 300 (.L (LNode.new 2 200 (.S ⟨1, 100⟩)))) 7).1.mpr (by decide)

/-- C8: the cached size field of an LNode equals the number of entries
reachable along the chain and is at least 2; LNode::new establishes this
(given a correctly sized tail) and the operations of lnode.rs producing
LNodes (remove_from_lnode, insert, transform, and the chain consing
transmute_result underlying transmute and the joint walk) preserve it. -/
theorem claim_C8 :
    (∀ (l : LNode K V), l.sizesOk → l.size = l.entries.length ∧ 2 ≤ l.size) ∧
    (∀ (k : K) (v : V) (next : LNodeNext K V), next.sizesOk → (LNode.new k v next).sizesOk) ∧
    (∀ (l : LNode K V) (k : K) (l2 : LNode K V) (rk : K) (rv : V), l.sizesOk →
      removeFromLNode l k = .RemovedL l2 rk rv → l2.sizesOk) ∧
    (∀ (hv : K → Nat) (l : LNode K V) (k : K) (v : V) (flag : Option Flag) (rep : Bool)
      (l2 : LNode K V) (prev : Option (K × V)), l.sizesOk →
      LNode.insert hv l k v flag rep = .Inserted (.L l2) prev → l2.sizesOk) ∧
    (∀ (R : Type) (rop : R → R → R) (op : K → V → TRes V R) (l : LNode K V), l.sizesOk →
      (l.transform rop op).chainOk) ∧
    (∀ (e : Option (K × V)) (next : Option (LNodeNext K V)), chainOkO next →
      chainOkO (consTransmute e next)) := by
  refine ⟨?_, ?_, ?_, ?_, ?_, ?_⟩
  · intro l hok
    have h1 := sizesOk_size hok
    have h2 := two_le_entries l
    omega
  · intro k v next h
    exact sizesOk_new h k v
  · intro l k l2 rk rv hok hr
    exact ((remove_removed_spec l k).1 l2 rk rv hr).2.2 hok
  · intro hv l k v flag rep l2 prev hok h
    exact insert_sizesOk hok h
  · intro R rop op l hok
    exact transform_sizesOk _ _ l hok
  · intro e next h
    exact consTransmute_sizesOk h

/-- Witness for C8 at a concrete chain of two entries consed to three. -/
theorem claim_C8_witness :
    (LNode.new (5 : Nat) (50 : Nat) (.L (LNode.new 2 200 (.S ⟨1, 100⟩)))).sizesOk ∧
    (LNode.new (5 : Nat) (50 : Nat) (.L (LNode.new 2 200 (.S ⟨1, 100⟩)))).size = 3 := by
  have hbase : (LNode.new (2 : Nat) (200 : Nat) (.S ⟨1, 100⟩)).sizesOk :=
    (claim_C8 (K := Nat) (V := Nat)).2.1 2 200 (.S ⟨1, 100⟩) (by simp [LNodeNext.sizesOk])
  have h := (claim_C8 (K := Nat) (V := Nat)).2.1 5 50 (.L (LNode.new 2 200 (.S ⟨1, 100⟩)))
    (by simpa [LNodeNext.sizesOk] using hbase)
  exact ⟨h, rfl⟩

/-- C9: when LNode::find has returned Found for a key, remove_from_lnode
on that key returns a Removed result, so the panic on the NotFound branch
of the replacing insert is unreachable. -/
theorem claim_C9 (l : LNode K V) (k : K) (k0 : K) (v0 : V)
    (hfind : l.find k = some (k0, v0)) :
    removeFromLNode l k ≠ .NotFound ∧
    (∀ (hv : K → Nat) (v : V) (flag : Option Flag), LNode.insert hv l k v flag true ≠ .Panicked) := by
  have hfind2 : l.entries.find? (fun e => decide (e.1 = k)) = some (k0, v0) :=
    (find_eq_findEntry l k) ▸ hfind
  have hmem : (k0, v0) ∈ l.entries := List.mem_of_find?_eq_some hfind2
  have hpred : k0 = k := by simpa using List.find?_some hfind2
  have hnnf : removeFromLNode l k ≠ .NotFound := by
    intro hnf
    exact absurd hpred (by simpa using (remove_notFound_iff l k).mp hnf (k0, v0) hmem)
  refine ⟨hnnf, ?_⟩
  intro hv v flag
  unfold LNode.insert
  rw [hfind]
  simp only [if_true]
  rcases hr : removeFromLNode l k with _ | ⟨l2, rk, rv⟩ | ⟨s2, rk, rv⟩
  · exact absurd hr hnnf
  · simp
  · simp

/-- Witness for C9 at a concrete two-entry chain. -/
theorem claim_C9_witness :
    removeFromLNode (LNode.new 2 200 (.S ⟨1, 100⟩)) (1 : Nat) ≠ .NotFound ∧
    (∀ (hv : Nat → Nat) (v : Nat) (flag : Option Flag),
      LNode.insert hv (LNode.new 2 200 (.S ⟨1, 100⟩)) 1 v flag true ≠ .Panicked) :=
  claim_C9 (LNode.new 2 200 (.S ⟨1, 100⟩)) 1 1 100 (by rfl)

omit [DecidableEq K] [DecidableEq V] in
/-- The gather loop never terminates when the next of the right chain head
is a further LNode: each iteration resets the cursor to the head. -/
theorem gather_diverges {right : LNode K V} {l0 : LNode K V} (h : right.next = .L l0) :
    ∀ (fuel : Nat) (acc : List (K × V)), gatherGo right acc right fuel = none := by
  intro fuel
  induction fuel with
  | zero => intro acc; rfl
  | succ n ih =>
    intro acc
    simp only [gatherGo, h]
    exact ih _

/-- C1 (against the source): for two collision chains with equal full
hashes, joint_transmute_lnode runs forever whenever the right chain has
length three or more, because the gather loop assigns the chain head
rather than the advanced cursor (src/node/lnode.rs line 236); with any
amount of fuel the walk reports out-of-fuel. -/
theorem claim_C1 (hv : K → Nat) (this right : LNode K V) (l0 : LNode K V)
    (hhash : hv this.key = hv right.key) (hlen : right.next = .L l0)
    (b : K → V → K → V → Option (K × V)) (lop rop : K → V → Option (K × V)) (depth : Nat) :
    ∀ fuel, jtLL hv this right b lop rop depth fuel = .outOfFuel := by
  intro fuel
  simp only [jtLL, hhash, if_true, gatherRights, gather_diverges hlen fuel]

/-- Witness for C1: a left chain of length two against a right chain of
length three under a constant hasher. -/
theorem claim_C1_witness :
    jtLL (fun _ => 0) (LNode.new 8 80 (.S ⟨9, 90⟩))
      (LNode.new 5 50 (.L (LNode.new 6 60 (.S ⟨(7 : Nat), (70 : Nat)⟩))))
      (fun k v _ _ => some (k, v)) (fun k v => some (k, v)) (fun k v => some (k, v)) 0 1000 =
      .outOfFuel :=
  claim_C1 (fun _ => 0) (LNode.new 8 80 (.S ⟨9, 90⟩))
    (LNode.new 5 50 (.L (LNode.new 6 60 (.S ⟨7, 70⟩))))
    (LNode.new 6 60 (.S ⟨7, 70⟩)) rfl rfl _ _ _ 0 1000

omit [DecidableEq K] [DecidableEq V] in
/-- A hash below 256 is its own remainder modulo 4 to the 4th. -/
theorem mod_4pow_of_lt {h d : Nat} (hd : 4 ≤ d) (hh : h < 256) : h % 4 ^ d = h := by
  apply Nat.mod_eq_of_lt
  calc h < 256 := hh
    _ = 4 ^ 4 := by norm_num
    _ ≤ 4 ^ d := Nat.pow_le_pow_right (by norm_num) hd

omit [DecidableEq K] [DecidableEq V] in
/-- The 2-bit groups of a hash below its first n groups determine it
modulo 4 to the n. -/
theorem groups_determine_mod {h1 h2 : Nat} :
    ∀ n, (∀ d, d < n → flagIndex h1 d = flagIndex h2 d) → h1 % 4 ^ n = h2 % 4 ^ n := by
  intro n
  induction n with
  | zero => intro _; simp [Nat.mod_one]
  | succ m ih =>
    intro hgroups
    rw [Nat.mod_pow_succ, Nat.mod_pow_succ]
    rw [ih (fun d hd => hgroups d (by omega))]
    have : h1 / 4 ^ m % 4 = h2 / 4 ^ m % 4 := hgroups m (by omega)
    rw [this]

omit [DecidableEq K] [DecidableEq V] in
/-- Two 8-bit hashes agreeing on every flag-indexed 2-bit group up to the
maximum depth are equal. -/
theorem groups_determine {h1 h2 : Nat} (hh1 : h1 < 256) (hh2 : h2 < 256)
    (hgroups : ∀ d, d < 4 → flagIndex h1 d = flagIndex h2 d) : h1 = h2 := by
  have := groups_determine_mod 4 hgroups
  rwa [mod_4pow_of_lt (le_refl 4) hh1, mod_4pow_of_lt (le_refl 4) hh2] at this

omit [DecidableEq K] [DecidableEq V] in
/-- Two distinct hashes below 256 that agree below a depth keep that depth
within the flag range. -/
theorem flag_some_of_agree {h1 h2 d : Nat} (hh1 : h1 < 256) (hh2 : h2 < 256) (hne : h1 ≠ h2)
    (hagree : agreesBelow h1 h2 d = true) :
    (Flag.newAtDepth h1 d).isSome ∧ (Flag.newAtDepth h2 d).isSome := by
  have hd : d < 4 := by
    by_contra hd4
    have hd4 : 4 ≤ d := by omega
    have : h1 % 4 ^ d = h2 % 4 ^ d := by simpa [agreesBelow] using hagree
    rw [mod_4pow_of_lt hd4 hh1, mod_4pow_of_lt hd4 hh2] at this
    exact hne this
  have h8 : ¬ (2 * d ≥ 8) := by omega
  constructor <;> simp [Flag.newAtDepth, h8]

/-- C10: the joint walk only unwraps Flag::new_at_depth on the
hash-mismatch branches of joint_transmute_lnode and joint_transmute_snode
when the two hashes still agree on every group below the current depth, in
which case the depth is within the flag range and the unwrap cannot panic
(two hashes that agree on every flag-indexed bit group up to the maximum
depth are equal); consequently neither function panics there. -/
theorem claim_C10 :
    (∀ h1 h2 : Nat, h1 < 256 → h2 < 256 →
      (∀ d, d < 4 → flagIndex h1 d = flagIndex h2 d) → h1 = h2) ∧
    (∀ (hv : K → Nat) (this right : LNode K V) b lop rop (depth fuel : Nat),
      hv this.key < 256 → hv right.key < 256 →
      agreesBelow (hv this.key) (hv right.key) depth = true →
      jtLL hv this right b lop rop depth fuel ≠ .panicked) ∧
    (∀ (hv : K → Nat) (this : LNode K V) (right : SNode K V) b lop rop (depth : Nat),
      hv this.key < 256 → hv right.key < 256 →
      agreesBelow (hv this.key) (hv right.key) depth = true →
      jtLS hv this right b lop rop depth ≠ .panicked) := by
  refine ⟨fun h1 h2 hh1 hh2 hg => groups_determine hh1 hh2 hg, ?_, ?_⟩
  · intro hv this right b lop rop depth fuel hh1 hh2 hagree
    by_cases heq : hv this.key = hv right.key
    · simp only [jtLL, heq, if_true]
      rcases gatherRights right fuel with _ | rights <;> simp
    · have hsome := flag_some_of_agree hh1 hh2 heq hagree
      rcases hf1 : Flag.newAtDepth (hv this.key) depth with _ | f1
      · rw [hf1] at hsome; simp at hsome
      rcases hf2 : Flag.newAtDepth (hv right.key) depth with _ | f2
      · rw [hf2] at hsome; simp at hsome
      simp only [jtLL, heq, if_false, hf1, hf2]
      rcases this.transmuteChain lop with _ | a <;> rcases right.transmuteChain rop with _ | c <;>
        simp
  · intro hv this right b lop rop depth hh1 hh2 hagree
    by_cases heq : hv this.key = hv right.key
    · simp [jtLS, heq]
    · have hsome := flag_some_of_agree hh1 hh2 heq hagree
      rcases hf1 : Flag.newAtDepth (hv this.key) depth with _ | f1
      · rw [hf1] at hsome; simp at hsome
      rcases hf2 : Flag.newAtDepth (hv right.key) depth with _ | f2
      · rw [hf2] at hsome; simp at hsome
      simp only [jtLS, heq, if_false, hf1, hf2]
      rcases this.transmuteChain lop with _ | a <;>
        rcases rop right.key right.value with _ | e <;> simp

/-- Witness for C10 at two hashes differing in their top group (0 and 64)
meeting at depth 3, and concrete chains with those hashes. -/
theorem claim_C10_witness :
    ((64 : Nat) < 256 → (0 : Nat) < 256 →
      (∀ d, d < 4 → flagIndex 64 d = flagIndex 0 d) → (64 : Nat) = 0) ∧
    jtLL (fun k => if k ≤ 4 then 0 else 64)
      (LNode.new 1 10 (.S ⟨2, 20⟩)) (LNode.new 5 50 (.S ⟨(6 : Nat), (60 : Nat)⟩))
      (fun k v _ _ => some (k, v)) (fun k v => some (k, v)) (fun k v => some (k, v)) 3 7 ≠
      .panicked := by
  constructor
  · intro _ _ hg
    exact (claim_C10 (K := Nat) (V := Nat)).1 64 0 (by norm_num) (by norm_num) hg
  · exact (claim_C10 (K := Nat) (V := Nat)).2.1 (fun k => if k ≤ 4 then 0 else 64)
      (LNode.new 1 10 (.S ⟨2, 20⟩)) (LNode.new 5 50 (.S ⟨6, 60⟩)) _ _ _ 3 7
      (by decide) (by decide) (by decide)

omit [DecidableEq K] [DecidableEq V] in
/-- While the two hashes share the slot index the lift wraps a
single-child CNode around the next level. -/
theorem cnodeLift_step {a b : MNode K V} {ha hb d : Nat} (hd : d < 4)
    (heq : flagIndex ha d = flagIndex hb d) :
    cnodeLift a ha b hb d = mkCNode (2 ^ flagIndex ha d) [.C (cnodeLift a ha b hb (d + 1))] := by
  have hrem : 4 - d = (4 - (d + 1)) + 1 := by omega
  unfold cnodeLift
  rw [hrem]
  simp [cnodeLiftGo, heq]

omit [DecidableEq K] [DecidableEq V] in
/-- Where the two hashes diverge the lift builds the two-child CNode with
the children sorted by mask. -/
theorem cnodeLift_two {a b : MNode K V} {ha hb d : Nat} (hd : d < 4)
    (hne : flagIndex ha d ≠ flagIndex hb d) :
    cnodeLift a ha b hb d =
      mkCNode (2 ^ flagIndex ha d + 2 ^ flagIndex hb d)
        (if flagIndex ha d < flagIndex hb d then [a, b] else [b, a]) := by
  have hrem : 4 - d = (4 - (d + 1)) + 1 := by omega
  unfold cnodeLift
  rw [hrem]
  by_cases hlt : flagIndex ha d < flagIndex hb d <;>
    simp [cnodeLiftGo, hne, hlt]

/-- C5 (amended): lift_to_cnode_and_insert compares the hash of the stored
chain with the hash of the flag; when equal it returns a longer LNode with
the new entry consed on and no previous entry; when they differ it returns
(no previous entry) a CNode at the depth of the flag built by the
recursive cnode lift: a two-child CNode with the existing node and the new
SNode at their mask-sorted index positions where the slot indices at that
depth already differ, and otherwise a single-child CNode chain pushing the
pair deeper until the indices diverge. -/
theorem claim_C5 (hv : K → Nat) (this : LNodeNext K V) (k : K) (v : V) (keyFlag : Flag) :
    (hv this.key = keyFlag.hashValue →
      liftToCnodeAndInsert hv this k v keyFlag = .Inserted (.L (LNode.new k v this)) none) ∧
    (hv this.key ≠ keyFlag.hashValue → 2 * keyFlag.depth < 8 →
      liftToCnodeAndInsert hv this k v keyFlag =
        .Inserted (.C (cnodeLift this.toMNode (hv this.key) (.S ⟨k, v⟩)
          keyFlag.hashValue keyFlag.depth)) none ∧
      ((flagIndex (hv this.key) keyFlag.depth ≠ flagIndex keyFlag.hashValue keyFlag.depth →
        cnodeLift this.toMNode (hv this.key) (.S ⟨k, v⟩) keyFlag.hashValue keyFlag.depth =
          mkCNode (2 ^ flagIndex (hv this.key) keyFlag.depth +
              2 ^ flagIndex keyFlag.hashValue keyFlag.depth)
            (if flagIndex (hv this.key) keyFlag.depth <
                flagIndex keyFlag.hashValue keyFlag.depth
              then [this.toMNode, .S ⟨k, v⟩] else [.S ⟨k, v⟩, this.toMNode])) ∧
       (flagIndex (hv this.key) keyFlag.depth = flagIndex keyFlag.hashValue keyFlag.depth →
        cnodeLift this.toMNode (hv this.key) (.S ⟨k, v⟩) keyFlag.hashValue keyFlag.depth =
          mkCNode (2 ^ flagIndex (hv this.key) keyFlag.depth)
            [.C (cnodeLift this.toMNode (hv this.key) (.S ⟨k, v⟩)
              keyFlag.hashValue (keyFlag.depth + 1))]))) := by
  constructor
  · intro heq
    simp [liftToCnodeAndInsert, heq]
  · intro hne hdepth
    have hflag : Flag.newAtDepth (hv this.key) keyFlag.depth =
        some ⟨hv this.key, keyFlag.depth⟩ := by
      have h8 : ¬ 2 * keyFlag.depth ≥ 8 := by omega
      simp [Flag.newAtDepth, h8]
    refine ⟨by simp [liftToCnodeAndInsert, hne, hflag], ?_, ?_⟩
    · intro hidx
      exact cnodeLift_two (by omega) hidx
    · intro hidx
      exact cnodeLift_step (by omega) hidx

/-- Counterexample for C5 as stated: with the stored singleton hashing to
0 and the new key hashing to 16 the two hashes differ, yet at the depth of
the flag (0) the returned CNode has a single child (a nested CNode chain
down to depth 2, where the hashes first diverge), not two children at
their index positions. -/
theorem claim_C5_counterexample :
    (match liftToCnodeAndInsert (fun k => if k = 2 then 16 else 0)
        (.S ⟨(1 : Nat), (10 : Nat)⟩) 2 20 ⟨16, 0⟩ with
      | .Inserted (.C c) _ => c.children.length
      | _ => 0) = 1 ∧
    (match liftToCnodeAndInsert (fun k => if k = 2 then 16 else 0)
        (.S ⟨(1 : Nat), (10 : Nat)⟩) 2 20 ⟨16, 0⟩ with
      | .Inserted (.C c) _ => c.children.length
      | _ => 0) ≠ 2 := by
  have hlift : liftToCnodeAndInsert (fun k => if k = 2 then 16 else 0)
      (.S ⟨(1 : Nat), (10 : Nat)⟩) 2 20 ⟨16, 0⟩ =
      .Inserted (.C (cnodeLift (.S ⟨1, 10⟩) 0 (.S ⟨2, 20⟩) 16 0)) none := by
    simp [liftToCnodeAndInsert, LNodeNext.key, LNodeNext.toMNode, Flag.newAtDepth]
  rw [hlift, cnodeLift_step (by decide) (by decide)]
  constructor <;> simp [mkCNode, CNode.children]

/-- Witness for C5 at hashes 0 and 16 with a flag at depth 2, where the
slot indices differ and the two-child CNode appears. -/
theorem claim_C5_witness :
    liftToCnodeAndInsert (fun k => if k = 2 then 16 else 0)
        (.S ⟨(1 : Nat), (10 : Nat)⟩) 2 20 ⟨16, 2⟩ =
      .Inserted (.C (mkCNode (2 ^ 0 + 2 ^ 1)
        [.S ⟨1, 10⟩, .S ⟨2, 20⟩])) none := by
  have h := (claim_C5 (fun k => if k = 2 then 16 else 0)
    (.S ⟨(1 : Nat), (10 : Nat)⟩) 2 20 ⟨16, 2⟩).2 (by decide) (by decide)
  rw [h.1, h.2.1 (by decide)]
  simp
  rfl

/-- The hasher of the insert-panic input: every key hashes to 0 except
key 3, which hashes to 64 (same bottom three 2-bit groups as 0, different
top group). -/
def hvC2 : Nat → Nat := fun k => if k = 3 then 64 else 0

/-- One insert step, keeping the previous trie unless the insert returns
ok. -/
def insertStep (hv : Nat → Nat) (t : HashTrie Nat Nat) (k : Nat) : HashTrie Nat Nat :=
  match t.insert hv k (10 * k) false with
  | .ok t2 _ => t2
  | _ => t

/-- Inserting 1, then 3, then 2 builds a CNode chain down to depth 3 whose
slot holds the collision list of keys 2 and 1 at the exhausted depth 4. -/
def trieC2 : HashTrie Nat Nat :=
  insertStep hvC2 (insertStep hvC2 (insertStep hvC2 HashTrie.new 1) 3) 2

/-- C2 (against the source): the failure model is violated by insert.  On
the well-formed trie built by inserting keys 1, 3 and 2, inserting the
absent key 4 (whose full hash collides with the chain of 2 and 1 sitting
at exhausted hash depth) panics with either replace policy: lnode::insert
unwraps its key_flag (src/node/lnode.rs line 117), which is none at depth
4, before the hash-equality check of lift_to_cnode_and_insert could cons
the new collider onto the chain as the specification prescribes. -/
theorem claim_C2 :
    trieC2.wf hvC2 = true ∧
    trieC2.find hvC2 4 = none ∧
    HashTrie.insert hvC2 trieC2 4 40 false = .panicked ∧
    HashTrie.insert hvC2 trieC2 4 40 true = .panicked := ⟨rfl, rfl, rfl, rfl⟩

mutual
/-- Structural equality is reflexive. -/
theorem eqb_refl : ∀ (n : MNode K V), MNode.eqb n n = true
| .C (.mk bm ch s) => by
  simp [MNode.eqb, CNode.eqb]
  exact eqbList_refl ch
| .L l => by
  have h : @List.isPerm _ instBEqOfDecidableEq l.entries l.entries = true :=
    List.isPerm_iff.mpr (List.Perm.refl l.entries)
  simpa [MNode.eqb] using h
| .S s => by simp [MNode.eqb]
theorem eqbList_refl : ∀ (l : List (MNode K V)), MNode.eqbList l l = true
| [] => rfl
| x :: xs => by
  simp [MNode.eqbList]
  exact ⟨eqb_refl x, eqbList_refl xs⟩
end

omit [DecidableEq V] in
theorem wf_C_children_ne {hv : K → Nat} {bm : Nat} {ch : List (MNode K V)} {s d anchor : Nat}
    (h : MNode.wf hv (.C (.mk bm ch s)) (d + 1) anchor = true) : ch ≠ [] := by
  intro hnil
  subst hnil
  simp [MNode.wf] at h

/-- A 4-bit bitmap with no set slots is zero. -/
theorem bitmap_zero_of_no_slots : ∀ bm, bm < 16 → bitmapSlots bm = [] → bm = 0 := by decide

/-- A transform whose operation returns Unchanged on every entry leaves a
collision chain Unchanged. -/
theorem transform_unch_chain {R : Type} (rop : R → R → R) (fr : K → V → R) :
    ∀ l : LNode K V, ∃ r, l.transform rop (fun k v => .unchanged (fr k v)) = .unchanged r := by
  intro l
  cases l with
  | mk key value next s =>
    cases next with
    | L lnode =>
      rcases transform_unch_chain rop fr lnode with ⟨r, hr⟩
      exact ⟨rop (fr key value) r, by simp [LNode.transform, hr, transformResult]⟩
    | S snode =>
      exact ⟨rop (fr key value) (fr snode.key snode.value),
        by simp [LNode.transform, SNode.transform, transformResult]⟩

omit [DecidableEq V] in
theorem transformList_length {R : Type} {r0 : R} {rop : R → R → R} {op : K → V → TRes V R} :
    ∀ children : List (MNode K V),
      (MNode.transformList children r0 rop op).length = children.length := by
  intro children
  induction children with
  | nil => rfl
  | cons c cs ih => simp [MNode.transformList, ih]

mutual
/-- A transform whose operation returns Unchanged on every entry returns
Unchanged on every well-formed node that is not a childless CNode. -/
theorem transform_unch {R : Type} (hv : K → Nat) (r0 : R) (rop : R → R → R) (fr : K → V → R) :
    ∀ (n : MNode K V) (d anchor : Nat), n.wf hv d anchor = true →
      (∀ bm ch s, n = .C (.mk bm ch s) → ch ≠ []) →
      ∃ r, n.transform r0 rop (fun k v => .unchanged (fr k v)) = .unchanged r
| .C (.mk bm ch s), d, anchor => by
  intro hwf hne
  have hch : ch ≠ [] := hne bm ch s rfl
  have hwfch : MNode.wfChildren hv (bitmapSlots bm) ch d anchor = true := by
    simp only [MNode.wf, Bool.and_eq_true] at hwf
    exact hwf.2
  have hall := transformList_unch hv r0 rop fr (bitmapSlots bm) ch d anchor hwfch
  have hlen : (MNode.transformList ch r0 rop (fun k v => TRes.unchanged (fr k v))).length =
      ch.length := transformList_length ch
  have hres : (MNode.transformList ch r0 rop (fun k v => TRes.unchanged (fr k v))).isEmpty = false := by
    rcases hl : MNode.transformList ch r0 rop (fun k v => TRes.unchanged (fr k v)) with _ | _
    · rw [hl] at hlen
      rcases hc : ch with _ | ⟨c, cs⟩
      · exact absurd hc hch
      · rw [hc] at hlen; simp at hlen
    · simp [List.isEmpty]
  refine ⟨(MNode.transformList ch r0 rop (fun k v => TRes.unchanged (fr k v))).foldl
      (fun acc r => rop acc r.reduced) r0, ?_⟩
  simp only [MNode.transform]
  rw [hres, hall]
  simp
| .L l, d, anchor => by
  intro _ _
  rcases transform_unch_chain rop fr l with ⟨r, hr⟩
  exact ⟨r, by simp [MNode.transform, hr]⟩
| .S s, d, anchor => by
  intro _ _
  exact ⟨fr s.key s.value, by simp [MNode.transform, SNode.transform]⟩
/-- Every child result of the transform of a well-formed child list is
Unchanged. -/
theorem transformList_unch {R : Type} (hv : K → Nat) (r0 : R) (rop : R → R → R) (fr : K → V → R) :
    ∀ (slots : List Nat) (children : List (MNode K V)) (d anchor : Nat),
      MNode.wfChildren hv slots children d anchor = true →
      (MNode.transformList children r0 rop (fun k v => TRes.unchanged (fr k v))).all
        NTRes.isUnchanged = true
| _, [], _, _ => by intro _; rfl
| [], c :: cs, d, anchor => by intro h; simp [MNode.wfChildren] at h
| i :: is, c :: cs, d, anchor => by
  intro h
  simp only [MNode.wfChildren, Bool.and_eq_true] at h
  have hc : ∃ r, MNode.transform c r0 rop (fun k v => TRes.unchanged (fr k v)) = .unchanged r := by
    apply transform_unch hv r0 rop fr c (d + 1) (anchor % 4 ^ d + i * 4 ^ d) h.1
    intro bm ch s hceq
    rw [hceq] at h
    exact wf_C_children_ne (h := h.1)
  rcases hc with ⟨r, hr⟩
  have hrest := transformList_unch hv r0 rop fr is cs d anchor h.2
  simp only [MNode.transformList, List.all_cons, Bool.and_eq_true]
  exact ⟨by simp [hr, NTRes.isUnchanged], hrest⟩
end

/-- The chain transform with addition reduces to the sum of the per-entry
contributions. -/
theorem transform_sum_chain (fr : K → V → Nat) :
    ∀ l : LNode K V, l.transform Nat.add (fun k v => .unchanged (fr k v)) =
      .unchanged ((l.entries.map (fun e => fr e.1 e.2)).sum) := by
  intro l
  cases l with
  | mk key value next s =>
    cases next with
    | L lnode =>
      have ih := transform_sum_chain fr lnode
      simp [LNode.transform, ih, transformResult, LNode.entries, LNodeNext.entries]
    | S snode =>
      simp [LNode.transform, SNode.transform, transformResult, LNode.entries, LNodeNext.entries]

mutual
/-- The reduction carried out of an all-Unchanged transform with addition
is the sum of the per-entry contributions, on every node. -/
theorem transform_sum (fr : K → V → Nat) :
    ∀ n : MNode K V, (n.transform 0 Nat.add (fun k v => .unchanged (fr k v))).reduced =
      (n.entries.map (fun e => fr e.1 e.2)).sum
| .C (.mk bm ch s) => by
  have hl := transform_sum_list fr ch 0
  simp only [MNode.transform, MNode.entries]
  split
  · simpa [NTRes.reduced] using hl
  · split <;> simpa [NTRes.reduced] using hl
| .L l => by
  have h := transform_sum_chain fr l
  simp [MNode.transform, h, NTRes.reduced, MNode.entries]
| .S s => by simp [MNode.transform, SNode.transform, NTRes.reduced, MNode.entries]
/-- The left fold of the child reductions with addition accumulates the
sum of all entries below the children. -/
theorem transform_sum_list (fr : K → V → Nat) :
    ∀ (children : List (MNode K V)) (z : Nat),
      (MNode.transformList children 0 Nat.add (fun k v => .unchanged (fr k v))).foldl
        (fun acc r => Nat.add acc r.reduced) z =
      z + ((MNode.entriesList children).map (fun e => fr e.1 e.2)).sum
| [], z => by simp [MNode.transformList, MNode.entriesList]
| c :: cs, z => by
  have hc := transform_sum fr c
  have hrest := transform_sum_list fr cs
    (z + ((MNode.entries c).map (fun e => fr e.1 e.2)).sum)
  simp only [MNode.transformList, List.foldl, MNode.entriesList]
  rw [show Nat.add z (MNode.transform c 0 Nat.add fun k v => TRes.unchanged (fr k v)).reduced =
    z + ((MNode.entries c).map (fun e => fr e.1 e.2)).sum from by rw [hc]; rfl]
  rw [hrest]
  simp [List.map_append, List.sum_append]
  omega
end

omit [DecidableEq V] in
theorem bitmapSlots_nil_of_wfChildren {hv : K → Nat} {bm d anchor : Nat}
    (h : MNode.wfChildren hv (bitmapSlots bm) ([] : List (MNode K V)) d anchor = true) :
    bitmapSlots bm = [] := by
  rcases hs : bitmapSlots bm with _ | ⟨i, is⟩
  · rfl
  · rw [hs] at h
    simp [MNode.wfChildren] at h

/-- The identity hasher used for the 1..100 set. -/
def idh : Nat → Nat := fun k => k

/-- The set holding 1 through 100 (as keys of a unit-like map), built by
100 inserts into the empty trie under the identity hasher. -/
def set100 : HashTrie Nat Nat :=
  (List.range 100).foldl (fun t i => insertStep idh t (i + 1)) HashTrie.new

/-- C3: a transform whose operation returns Unchanged on every entry
returns a trie equal to the original for every well-formed trie, and with
addition as the reduce operation the returned reduction is the sum of the
per-entry contributions; in particular on the set of 1..100 with each
entry contributing its key the transform returns the set itself and the
reduction 5050. -/
theorem claim_C3 :
    (∀ (R : Type) (r0 : R) (rop : R → R → R) (fr : K → V → R) (hv : K → Nat) (t : HashTrie K V),
      t.wf hv = true →
      ((t.transform r0 rop (fun k v => .unchanged (fr k v))).1).root.eqb t.root = true) ∧
    (∀ (fr : K → V → Nat) (t : HashTrie K V),
      (t.transform 0 Nat.add (fun k v => .unchanged (fr k v))).2 =
        (t.root.entries.map (fun e => fr e.1 e.2)).sum) ∧
    set100.transform 0 Nat.add (fun k _ => .unchanged k) = (set100, 5050) := by
  refine ⟨?_, ?_, by rfl⟩
  · intro R r0 rop fr hv t hwf
    rcases ht : t.root with c | l | sn
    · rcases c with ⟨bm, ch, sz⟩
      rcases hch : ch with _ | ⟨c0, cs⟩
      · have hwf2 : MNode.wf hv (.C (.mk bm ([] : List (MNode K V)) sz)) 0 0 = true := by
          rw [← hch, ← ht]
          exact hwf
        have hwfch : MNode.wfChildren hv (bitmapSlots bm) ([] : List (MNode K V)) 0 0 = true := by
          simp only [MNode.wf, Bool.and_eq_true] at hwf2
          exact hwf2.2
        have hslots := bitmapSlots_nil_of_wfChildren hwfch
        have hbm : bm = 0 := by
          apply bitmap_zero_of_no_slots bm ?_ hslots
          simp only [MNode.wf, Bool.and_eq_true] at hwf2
          simpa using hwf2.1.1.2
        have hroot : MNode.transform t.root r0 rop (fun k v => TRes.unchanged (fr k v)) =
            .removed r0 := by
          rw [ht, hch]
          simp [MNode.transform, MNode.transformList, transformKept, assembleSlots, List.isEmpty]
        simp only [HashTrie.transform, hroot]
        simp [HashTrie.new, MNode.empty, MNode.eqb, CNode.eqb, hbm, MNode.eqbList]
      · have hun : ∃ r, MNode.transform (.C (.mk bm (c0 :: cs) sz)) r0 rop
            (fun k v => TRes.unchanged (fr k v)) = .unchanged r := by
          apply transform_unch hv r0 rop fr _ 0 0
          · rw [← hch, ← ht]; exact hwf
          · intro bm2 ch2 s2 heq
            injection heq with heq
            injection heq with h1 h2 h3
            rw [← h2]
            simp
        rcases hun with ⟨r, hr⟩
        have hroot : MNode.transform t.root r0 rop (fun k v => TRes.unchanged (fr k v)) =
            .unchanged r := by rw [ht, hch]; exact hr
        simp only [HashTrie.transform, hroot]
        rw [← hch, ← ht]
        exact eqb_refl t.root
    · have hun : ∃ r, MNode.transform (.L l) r0 rop
          (fun k v => TRes.unchanged (fr k v)) = .unchanged r := by
        apply transform_unch hv r0 rop fr _ 0 0
        · rw [← ht]; exact hwf
        · intro bm2 ch2 s2 heq
          exact absurd heq (by simp)
      rcases hun with ⟨r, hr⟩
      have hroot : MNode.transform t.root r0 rop (fun k v => TRes.unchanged (fr k v)) =
          .unchanged r := by rw [ht]; exact hr
      simp only [HashTrie.transform, hroot]
      rw [← ht]
      exact eqb_refl t.root
    · have hun : ∃ r, MNode.transform (.S sn) r0 rop
          (fun k v => TRes.unchanged (fr k v)) = .unchanged r := by
        apply transform_unch hv r0 rop fr _ 0 0
        · rw [← ht]; exact hwf
        · intro bm2 ch2 s2 heq
          exact absurd heq (by simp)
      rcases hun with ⟨r, hr⟩
      have hroot : MNode.transform t.root r0 rop (fun k v => TRes.unchanged (fr k v)) =
          .unchanged r := by rw [ht]; exact hr
      simp only [HashTrie.transform, hroot]
      rw [← ht]
      exact eqb_refl t.root
  · intro fr t
    have hsum := transform_sum fr t.root
    rcases h : t.root.transform 0 Nat.add (fun k v => TRes.unchanged (fr k v)) with r | ⟨n, r⟩ | r <;>
      rw [h] at hsum <;> simp [NTRes.reduced] at hsum <;>
      simp [HashTrie.transform, h, hsum]

/-- Witness for C3 on the concrete 1..100 set. -/
theorem claim_C3_witness :
    ((set100.transform 0 Nat.add
      (fun (k : Nat) (_ : Nat) => TRes.unchanged k)).1).root.eqb set100.root = true ∧
    (set100.transform 0 Nat.add (fun (k : Nat) (_ : Nat) => TRes.unchanged k)).2 = 5050 :=
  ⟨(claim_C3 (K := Nat) (V := Nat)).1 Nat 0 Nat.add (fun k _ => k) idh set100 (by rfl),
   by rw [(claim_C3 (K := Nat) (V := Nat)).2.2]⟩

/-! Support for C4: placement of keys in a well-formed trie and the
previous-entry characterization of insert. -/

theorem one_le_tsize (n : MNode K V) : 1 ≤ n.tsize := by
  rcases n with c | l | s
  · rcases c with ⟨bm, ch, sz⟩
    simp [MNode.tsize]
  · simp [MNode.tsize]
  · simp [MNode.tsize]

theorem getIn_mem : ∀ {l : List α} {i : Nat} {x : α}, getIn l i = some x → x ∈ l := by
  intro l
  induction l with
  | nil => intro i x h; simp [getIn] at h
  | cons a as ih =>
    intro i x h
    cases i with
    | zero =>
      simp [getIn] at h
      subst h
      exact List.mem_cons_self a as
    | succ j =>
      simp [getIn] at h
      exact List.mem_cons_of_mem a (ih h)

theorem getIn_lt_of_some : ∀ {l : List α} {i : Nat} {x : α},
    getIn l i = some x → i < l.length := by
  intro l
  induction l with
  | nil => intro i x h; simp [getIn] at h
  | cons a as ih =>
    intro i x h
    cases i with
    | zero => simp
    | succ j =>
      simp [getIn] at h
      have := ih h
      simp
      omega

theorem getIn_some_of_lt : ∀ {l : List α} {i : Nat}, i < l.length → ∃ x, getIn l i = some x := by
  intro l
  induction l with
  | nil => intro i h; simp at h
  | cons a as ih =>
    intro i h
    cases i with
    | zero => exact ⟨a, rfl⟩
    | succ j =>
      have hj : j < as.length := by simp at h; omega
      rcases ih hj with ⟨x, hx⟩
      exact ⟨x, hx⟩

theorem getIn_nodup_inj : ∀ {l : List α}, l.Nodup → ∀ {i j : Nat} {x : α},
    getIn l i = some x → getIn l j = some x → i = j := by
  intro l
  induction l with
  | nil => intro _ i j x h; simp [getIn] at h
  | cons a as ih =>
    intro hnd i j x hi hj
    rcases List.nodup_cons.mp hnd with ⟨ha, hnd2⟩
    cases i with
    | zero =>
      cases j with
      | zero => rfl
      | succ j2 =>
        simp [getIn] at hi hj
        subst hi
        exact absurd (getIn_mem hj) ha
    | succ i2 =>
      cases j with
      | zero =>
        simp [getIn] at hi hj
        subst hj
        exact absurd (getIn_mem hi) ha
      | succ j2 =>
        simp [getIn] at hi hj
        exact congrArg Nat.succ (ih hnd2 hi hj)

theorem bitmapSlots_nodup (bm : Nat) : (bitmapSlots bm).Nodup :=
  List.Nodup.filter _ (List.nodup_range 4)

theorem mem_bitmapSlots {bm i : Nat} (h : i ∈ bitmapSlots bm) :
    hasBit bm i = true ∧ i < 4 := by
  rcases List.mem_filter.mp h with ⟨hr, hb⟩
  exact ⟨hb, List.mem_range.mp hr⟩

/-- In a 4-bit bitmap a set bit is found at its own popcount-compressed
position of the slot list. -/
theorem slot_coherence : ∀ bm, bm < 16 → ∀ i, i < 4 → hasBit bm i = true →
    getIn (bitmapSlots bm) (sparseIndex bm (2 ^ i)) = some i := by decide

theorem flagIndex_lt4 (h d : Nat) : flagIndex h d < 4 := Nat.mod_lt _ (by omega)

theorem wfChildren_length {hv : K → Nat} : ∀ (slots : List Nat) (ch : List (MNode K V))
    (d anchor : Nat), MNode.wfChildren hv slots ch d anchor = true →
    slots.length = ch.length := by
  intro slots
  induction slots with
  | nil =>
    intro ch d anchor h
    cases ch with
    | nil => rfl
    | cons c cs => simp [MNode.wfChildren] at h
  | cons i is ih =>
    intro ch d anchor h
    cases ch with
    | nil => simp [MNode.wfChildren] at h
    | cons c cs =>
      simp only [MNode.wfChildren, Bool.and_eq_true] at h
      have := ih cs d anchor h.2
      simp [this]

theorem wfChildren_pair {hv : K → Nat} : ∀ (slots : List Nat) (ch : List (MNode K V))
    (d anchor : Nat), MNode.wfChildren hv slots ch d anchor = true →
    ∀ (j i : Nat) (c : MNode K V), getIn slots j = some i → getIn ch j = some c →
      MNode.wf hv c (d + 1) (anchor % 4 ^ d + i * 4 ^ d) = true := by
  intro slots
  induction slots with
  | nil => intro ch d anchor h j i c hi hc; simp [getIn] at hi
  | cons i0 is ih =>
    intro ch d anchor h j i c hi hc
    cases ch with
    | nil => simp [MNode.wfChildren] at h
    | cons c0 cs =>
      simp only [MNode.wfChildren, Bool.and_eq_true] at h
      cases j with
      | zero =>
        simp [getIn] at hi hc
        subst hi
        subst hc
        exact h.1
      | succ j2 =>
        simp [getIn] at hi hc
        exact ih cs d anchor h.2 j2 i c hi hc

theorem mem_entriesList_fwd : ∀ {ch : List (MNode K V)} {e : K × V},
    e ∈ MNode.entriesList ch → ∃ j c, getIn ch j = some c ∧ e ∈ MNode.entries c := by
  intro ch
  induction ch with
  | nil => intro e h; simp [MNode.entriesList] at h
  | cons c cs ih =>
    intro e h
    rw [show MNode.entriesList (c :: cs) = MNode.entries c ++ MNode.entriesList cs from rfl] at h
    rcases List.mem_append.mp h with h1 | h2
    · exact ⟨0, c, rfl, h1⟩
    · rcases ih h2 with ⟨j, c2, hg, he⟩
      exact ⟨j + 1, c2, hg, he⟩

theorem mem_entriesList_bwd : ∀ {ch : List (MNode K V)} {j : Nat} {c : MNode K V} {e : K × V},
    getIn ch j = some c → e ∈ MNode.entries c → e ∈ MNode.entriesList ch := by
  intro ch
  induction ch with
  | nil => intro j c e hg he; simp [getIn] at hg
  | cons c0 cs ih =>
    intro j c e hg he
    rw [show MNode.entriesList (c0 :: cs) = MNode.entries c0 ++ MNode.entriesList cs from rfl]
    cases j with
    | zero =>
      simp [getIn] at hg
      subst hg
      exact List.mem_append.mpr (Or.inl he)
    | succ j2 =>
      simp [getIn] at hg
      exact List.mem_append.mpr (Or.inr (ih hg he))

/-- A hash that agrees with the child anchor below depth d+1 agrees with
the parent anchor below depth d. -/
theorem agreesBelow_restrict {h anchor d i : Nat}
    (hag : agreesBelow h (anchor % 4 ^ d + i * 4 ^ d) (d + 1) = true) :
    agreesBelow h anchor d = true := by
  simp only [agreesBelow, beq_iff_eq] at hag ⊢
  have hdvd : (4 : Nat) ^ d ∣ 4 ^ (d + 1) := pow_dvd_pow 4 (by omega)
  calc h % 4 ^ d = h % 4 ^ (d + 1) % 4 ^ d := (Nat.mod_mod_of_dvd h hdvd).symm
    _ = (anchor % 4 ^ d + i * 4 ^ d) % 4 ^ (d + 1) % 4 ^ d := by rw [hag]
    _ = (anchor % 4 ^ d + i * 4 ^ d) % 4 ^ d := Nat.mod_mod_of_dvd _ hdvd
    _ = anchor % 4 ^ d % 4 ^ d := by rw [Nat.add_mul_mod_self_right]
    _ = anchor % 4 ^ d := Nat.mod_mod_of_dvd anchor (dvd_refl _)

/-- A hash that agrees with the anchor of the child at slot i below depth
d+1 has slot index i at depth d. -/
theorem agree_child_index {h anchor d i : Nat} (hi : i < 4)
    (hag : agreesBelow h (anchor % 4 ^ d + i * 4 ^ d) (d + 1) = true) :
    flagIndex h d = i := by
  have hp : 0 < (4 : Nat) ^ d := pow_pos (by omega) d
  have hlow : h % 4 ^ d = anchor % 4 ^ d := by
    have := agreesBelow_restrict hag
    simpa [agreesBelow] using this
  simp only [agreesBelow, beq_iff_eq] at hag
  rw [Nat.mod_pow_succ, Nat.mod_pow_succ] at hag
  have hdiv : (anchor % 4 ^ d + i * 4 ^ d) / 4 ^ d = i := by
    rw [Nat.add_mul_div_right _ _ hp, Nat.div_eq_of_lt (Nat.mod_lt anchor hp), Nat.zero_add]
  have hmod : (anchor % 4 ^ d + i * 4 ^ d) % 4 ^ d = anchor % 4 ^ d := by
    rw [Nat.add_mul_mod_self_right]
    exact Nat.mod_mod_of_dvd anchor (dvd_refl _)
  rw [hdiv, hmod, Nat.mod_eq_of_lt hi, hlow] at hag
  have h2 : 4 ^ d * (h / 4 ^ d % 4) = 4 ^ d * i := Nat.add_left_cancel hag
  show h / 4 ^ d % 4 = i
  exact Nat.eq_of_mul_eq_mul_left hp h2

/-- A hash that agrees with the anchor below depth d agrees below depth
d+1 with the anchor extended by its own slot index at depth d. -/
theorem agreesBelow_extend {h anchor d : Nat} (hag : agreesBelow h anchor d = true) :
    agreesBelow h (anchor % 4 ^ d + flagIndex h d * 4 ^ d) (d + 1) = true := by
  simp only [agreesBelow, beq_iff_eq] at hag ⊢
  have hp : 0 < (4 : Nat) ^ d := pow_pos (by omega) d
  have ha : anchor % 4 ^ d < 4 ^ d := Nat.mod_lt anchor hp
  have hfi : flagIndex h d < 4 := flagIndex_lt4 h d
  have hlt : anchor % 4 ^ d + flagIndex h d * 4 ^ d < 4 ^ (d + 1) := by
    rw [pow_succ]
    have hmul : flagIndex h d * 4 ^ d ≤ 3 * 4 ^ d := Nat.mul_le_mul_right _ (by omega)
    omega
  rw [Nat.mod_eq_of_lt hlt, Nat.mod_pow_succ, hag]
  show anchor % 4 ^ d + 4 ^ d * flagIndex h d = anchor % 4 ^ d + flagIndex h d * 4 ^ d
  rw [Nat.mul_comm]

mutual
/-- In a well-formed node every stored key hashes compatibly with the
anchor below the node's depth. -/
theorem keys_agree {hv : K → Nat} : ∀ (n : MNode K V) (d anchor : Nat),
    MNode.wf hv n d anchor = true →
    ∀ k, k ∈ MNode.keys n → agreesBelow (hv k) anchor d = true
| .C (.mk bm ch sz), d, anchor => by
  intro hwf k hk
  have hch : MNode.wfChildren hv (bitmapSlots bm) ch d anchor = true := by
    simp only [MNode.wf, Bool.and_eq_true] at hwf
    exact hwf.2
  exact keysList_agree (bitmapSlots bm) ch d anchor hch k
    (by simpa [MNode.keys, MNode.entries] using hk)
| .L l, d, anchor => by
  intro hwf k hk
  simp only [MNode.wf, Bool.and_eq_true, decide_eq_true_eq, List.all_eq_true,
    beq_iff_eq] at hwf
  have hk2 : k ∈ (LNode.entries l).map Prod.fst := hk
  rcases List.mem_map.mp hk2 with ⟨e, he, hek⟩
  have hhash : hv e.1 = hv l.key := hwf.1.2 e he
  rw [← hek, hhash]
  exact hwf.1.1.1
| .S s, d, anchor => by
  intro hwf k hk
  simp only [MNode.wf, Bool.and_eq_true, decide_eq_true_eq] at hwf
  have hks : k = s.key := by simpa [MNode.keys, MNode.entries] using hk
  rw [hks]
  exact hwf.1
/-- The same for every key stored under a well-formed child list, at the
parent's depth. -/
theorem keysList_agree {hv : K → Nat} : ∀ (slots : List Nat) (ch : List (MNode K V))
    (d anchor : Nat), MNode.wfChildren hv slots ch d anchor = true →
    ∀ k, k ∈ (MNode.entriesList ch).map Prod.fst → agreesBelow (hv k) anchor d = true
| _, [], _, _ => by
  intro _ k hk
  simp [MNode.entriesList] at hk
| [], c :: cs, d, anchor => by
  intro h
  simp [MNode.wfChildren] at h
| i :: is, c :: cs, d, anchor => by
  intro h k hk
  simp only [MNode.wfChildren, Bool.and_eq_true] at h
  rcases List.mem_map.mp hk with ⟨e, he, hek⟩
  rw [show MNode.entriesList (c :: cs) = MNode.entries c ++ MNode.entriesList cs from rfl] at he
  rcases List.mem_append.mp he with h1 | h2
  · have hag := keys_agree c (d + 1) (anchor % 4 ^ d + i * 4 ^ d) h.1 k
      (List.mem_map.mpr ⟨e, h1, hek⟩)
    exact agreesBelow_restrict hag
  · exact keysList_agree is cs d anchor h.2 k (List.mem_map.mpr ⟨e, h2, hek⟩)
end

/-- A key stored under a well-formed child list of a CNode lives in the
child addressed by the key's own slot index at the node's depth. -/
theorem keys_slot {hv : K → Nat} {bm : Nat} {ch : List (MNode K V)} {d anchor : Nat} {k : K}
    (hbm : bm < 16)
    (hwfch : MNode.wfChildren hv (bitmapSlots bm) ch d anchor = true)
    (hk : k ∈ (MNode.entriesList ch).map Prod.fst) :
    hasBit bm (flagIndex (hv k) d) = true ∧
    ∃ c, getIn ch (sparseIndex bm (2 ^ flagIndex (hv k) d)) = some c ∧ k ∈ MNode.keys c := by
  rcases List.mem_map.mp hk with ⟨e, he, hek⟩
  rcases mem_entriesList_fwd he with ⟨j, c, hgc, hec⟩
  have hjlen : j < ch.length := getIn_lt_of_some hgc
  have hjlen2 : j < (bitmapSlots bm).length := by
    rw [wfChildren_length (bitmapSlots bm) ch d anchor hwfch]
    exact hjlen
  rcases getIn_some_of_lt hjlen2 with ⟨i, hgi⟩
  rcases mem_bitmapSlots (getIn_mem hgi) with ⟨hbit, hi4⟩
  have hcwf := wfChildren_pair (bitmapSlots bm) ch d anchor hwfch j i c hgi hgc
  have hkc : k ∈ MNode.keys c := List.mem_map.mpr ⟨e, hec, hek⟩
  have hagc := keys_agree c (d + 1) (anchor % 4 ^ d + i * 4 ^ d) hcwf k hkc
  have hfi : flagIndex (hv k) d = i := agree_child_index hi4 hagc
  have hco := slot_coherence bm hbm i hi4 hbit
  have hji : j = sparseIndex bm (2 ^ i) := getIn_nodup_inj (bitmapSlots_nodup bm) hgi hco
  refine ⟨by rw [hfi]; exact hbit, c, ?_, hkc⟩
  rw [hfi, ← hji]
  exact hgc

/-- lift_to_cnode_and_insert never reports an existing entry and never
reports a previous entry. -/
theorem lift_shape {hv : K → Nat} {t0 : LNodeNext K V} {k : K} {v : V} {f : Flag} :
    (∀ k0 v0, liftToCnodeAndInsert hv t0 k v f ≠ .Found k0 v0) ∧
    (∀ n2 prev, liftToCnodeAndInsert hv t0 k v f = .Inserted n2 prev → prev = none) := by
  constructor
  · intro k0 v0 h
    simp only [liftToCnodeAndInsert] at h
    split at h
    · simp at h
    · split at h
      · simp at h
      · simp at h
  · intro n2 prev h
    simp only [liftToCnodeAndInsert] at h
    split at h
    · injection h with h1 h2
      exact h2.symm
    · split at h
      · simp at h
      · injection h with h1 h2
        exact h2.symm

theorem find_mem_of_some {l : LNode K V} {k : K} {e : K × V} (h : l.find k = some e) :
    k ∈ l.entries.map Prod.fst := by
  rw [find_eq_findEntry] at h
  have hmem := List.mem_of_find?_eq_some h
  have hp := List.find?_some h
  simp at hp
  exact List.mem_map.mpr ⟨e, hmem, hp⟩

theorem find_not_mem_of_none {l : LNode K V} {k : K} (h : l.find k = none) :
    k ∉ l.entries.map Prod.fst := by
  rw [find_eq_findEntry] at h
  intro hk
  rcases List.mem_map.mp hk with ⟨e, he, hek⟩
  have hne := List.find?_eq_none.mp h e he
  simp at hne
  exact hne hek

theorem isSome_none_iff {α : Type} {p : Prop} (hp : ¬ p) {b : Bool} :
    ((none : Option α).isSome = true ↔ (b = true ∧ p)) := by
  simp [hp]

theorem isSome_some_iff {α : Type} {p : Prop} (hp : p) {x : α} :
    ((some x).isSome = true ↔ (true = true ∧ p)) := by
  simp [hp]

/-- Inside the compact array the insert of the walk mirrors the insert
into the addressed child: same Found entry, same previous entry. -/
theorem insertIn_char (hv : K → Nat) : ∀ (children : List (MNode K V)) (idx : Nat) (k : K)
    (v : V) (flag : Option Flag) (replace : Bool) (c : MNode K V),
    getIn children idx = some c →
    ((∀ k0 v0, CNode.insertIn hv children idx k v flag replace = .Found k0 v0 →
      MNode.insert hv c k v flag replace = .Found k0 v0) ∧
    (∀ ch2 prev, CNode.insertIn hv children idx k v flag replace = .Inserted ch2 prev →
      ∃ n2, MNode.insert hv c k v flag replace = .Inserted n2 prev)) := by
  intro children
  induction children with
  | nil => intro idx k v flag replace c hg; simp [getIn] at hg
  | cons c0 cs ih =>
    intro idx k v flag replace c hg
    cases idx with
    | zero =>
      simp [getIn] at hg
      subst hg
      constructor
      · intro k0 v0 h
        revert h
        simp only [CNode.insertIn]
        rcases hm : MNode.insert hv c0 k v flag replace with ⟨k1, v1⟩ | ⟨n1, p1⟩ | _ <;> intro h
        · simp at h
          rw [h.1, h.2]
        · simp at h
        · simp at h
      · intro ch2 prev h
        revert h
        simp only [CNode.insertIn]
        rcases hm : MNode.insert hv c0 k v flag replace with ⟨k1, v1⟩ | ⟨n1, p1⟩ | _ <;> intro h
        · simp at h
        · simp at h
          exact ⟨n1, by rw [← h.2]⟩
        · simp at h
    | succ j =>
      simp only [getIn] at hg
      constructor
      · intro k0 v0 h
        revert h
        simp only [CNode.insertIn]
        rcases hm : CNode.insertIn hv cs j k v flag replace with ⟨k1, v1⟩ | ⟨rest2, p1⟩ | _ <;>
          intro h
        · simp at h
          exact (ih j k v flag replace c hg).1 _ _ (by rw [hm, h.1, h.2])
        · simp at h
        · simp at h
      · intro ch2 prev h
        revert h
        simp only [CNode.insertIn]
        rcases hm : CNode.insertIn hv cs j k v flag replace with ⟨k1, v1⟩ | ⟨rest2, p1⟩ | _ <;>
          intro h
        · simp at h
        · simp at h
          exact h.2 ▸ (ih j k v flag replace c hg).2 rest2 p1 hm
        · simp at h

/-- The previous-entry characterization of insert on every well-formed
node: a Found result means replace was off and the key present; an
Inserted result carries a previous entry exactly when replace was on and
the key present. -/
theorem insert_char (hv : K → Nat) : ∀ (N : Nat) (n : MNode K V), n.tsize ≤ N →
    ∀ (d anchor : Nat) (k : K) (v : V) (replace : Bool),
    MNode.wf hv n d anchor = true →
    agreesBelow (hv k) anchor d = true →
    ((∀ k0 v0, MNode.insert hv n k v (Flag.newAtDepth (hv k) d) replace = .Found k0 v0 →
      replace = false ∧ k ∈ MNode.keys n) ∧
    (∀ n2 prev, MNode.insert hv n k v (Flag.newAtDepth (hv k) d) replace = .Inserted n2 prev →
      (prev.isSome = true ↔ (replace = true ∧ k ∈ MNode.keys n)))) := by
  intro N
  induction N with
  | zero =>
    intro n hn
    exact absurd (le_trans (one_le_tsize n) hn) (by omega)
  | succ N ih =>
    intro n hn d anchor k v replace hwf hag
    rcases n with c | l | s
    · -- CNode
      rcases c with ⟨bm, ch, sz⟩
      have hwf2 := hwf
      simp only [MNode.wf, Bool.and_eq_true, decide_eq_true_eq] at hwf2
      obtain ⟨⟨⟨hd4, hbm⟩, _⟩, hwfch⟩ := hwf2
      have hflag : Flag.newAtDepth (hv k) d = some ⟨hv k, d⟩ := by
        simp [Flag.newAtDepth]
        omega
      have hred : MNode.insert hv (.C (.mk bm ch sz)) k v (Flag.newAtDepth (hv k) d) replace
          = CNode.insert hv (.mk bm ch sz) k v (some ⟨hv k, d⟩) replace := by
        rw [hflag]
        simp only [MNode.insert]
      by_cases hbit : hasBit bm (flagIndex (hv k) d) = true
      · have hco := slot_coherence bm hbm (flagIndex (hv k) d) (flagIndex_lt4 (hv k) d) hbit
        have hlt : sparseIndex bm (2 ^ flagIndex (hv k) d) < ch.length := by
          rw [← wfChildren_length (bitmapSlots bm) ch d anchor hwfch]
          exact getIn_lt_of_some hco
        rcases getIn_some_of_lt hlt with ⟨c, hgc⟩
        have hcwf := wfChildren_pair (bitmapSlots bm) ch d anchor hwfch
          (sparseIndex bm (2 ^ flagIndex (hv k) d)) (flagIndex (hv k) d) c hco hgc
        have hagc := agreesBelow_extend hag
        have hcsize : MNode.tsize c ≤ N := by
          have h1 := tsize_getIn hgc
          have h2 : MNode.tsize (MNode.C (.mk bm ch sz)) = 1 + MNode.tsizeList ch := rfl
          rw [h2] at hn
          omega
        have hchild := ih c hcsize (d + 1) (anchor % 4 ^ d + flagIndex (hv k) d * 4 ^ d)
          k v replace hcwf hagc
        have hiic := insertIn_char hv ch (sparseIndex bm (2 ^ flagIndex (hv k) d)) k v
          (Flag.newAtDepth (hv k) (d + 1)) replace c hgc
        have hkeys : (k ∈ MNode.keys (MNode.C (CNode.mk bm ch sz))) ↔ (k ∈ MNode.keys c) := by
          constructor
          · intro hk
            rcases (keys_slot hbm hwfch (by simpa [MNode.keys, MNode.entries] using hk)).2
              with ⟨c2, hgc2, hkc2⟩
            rw [hgc] at hgc2
            injection hgc2 with hcc
            rw [hcc]
            exact hkc2
          · intro hk
            rcases List.mem_map.mp hk with ⟨e, he, hek⟩
            show k ∈ (MNode.entriesList ch).map Prod.fst
            exact List.mem_map.mpr ⟨e, mem_entriesList_bwd hgc he, hek⟩
        constructor
        · intro k0 v0 hres
          rw [hred] at hres
          revert hres
          simp only [CNode.insert, Flag.index]
          rw [if_pos hbit]
          rcases hin : CNode.insertIn hv ch (sparseIndex bm (2 ^ flagIndex (hv k) d)) k v
            (Flag.newAtDepth (hv k) (d + 1)) replace with ⟨k1, v1⟩ | ⟨ch2, p1⟩ | _ <;> intro hres
          · injection hres with h1 h2
            subst h1
            subst h2
            rcases hchild.1 _ _ (hiic.1 _ _ hin) with ⟨hrep, hkc⟩
            exact ⟨hrep, hkeys.mpr hkc⟩
          · exact absurd hres (by simp)
          · exact absurd hres (by simp)
        · intro n2 prev hres
          rw [hred] at hres
          revert hres
          simp only [CNode.insert, Flag.index]
          rw [if_pos hbit]
          rcases hin : CNode.insertIn hv ch (sparseIndex bm (2 ^ flagIndex (hv k) d)) k v
            (Flag.newAtDepth (hv k) (d + 1)) replace with ⟨k1, v1⟩ | ⟨ch2, p1⟩ | _ <;> intro hres
          · exact absurd hres (by simp)
          · injection hres with h1 h2
            rcases hiic.2 ch2 p1 hin with ⟨n3, hcins⟩
            rw [← h2, hchild.2 n3 p1 hcins, hkeys]
          · exact absurd hres (by simp)
      · have hbit2 : hasBit bm (flagIndex (hv k) d) = false := by
          revert hbit
          cases hasBit bm (flagIndex (hv k) d) <;> simp
        have hknot : k ∉ MNode.keys (MNode.C (CNode.mk bm ch sz)) := by
          intro hk
          have := (keys_slot hbm hwfch (by simpa [MNode.keys, MNode.entries] using hk)).1
          rw [hbit2] at this
          exact absurd this (by simp)
        constructor
        · intro k0 v0 hres
          rw [hred] at hres
          revert hres
          simp only [CNode.insert, Flag.index]
          rw [if_neg (by rw [hbit2]; simp)]
          intro hres
          exact absurd hres (by simp)
        · intro n2 prev hres
          rw [hred] at hres
          revert hres
          simp only [CNode.insert, Flag.index]
          rw [if_neg (by rw [hbit2]; simp)]
          intro hres
          injection hres with h1 h2
          rw [← h2]
          exact isSome_none_iff hknot
    · -- LNode
      constructor
      · intro k0 v0 hres
        revert hres
        simp only [MNode.insert, LNode.insert]
        rcases hfind : LNode.find l k with _ | ⟨ke, ve⟩
        · rcases hf : Flag.newAtDepth (hv k) d with _ | f <;> intro hres
          · exact absurd hres (by simp)
          · exact absurd hres (lift_shape.1 k0 v0)
        · cases replace with
          | false =>
            intro hres
            exact ⟨rfl, find_mem_of_some hfind⟩
          | true =>
            rcases hrem : removeFromLNode l k with _ | ⟨l2, pk, pv⟩ | ⟨s2, pk, pv⟩ <;>
              intro hres <;> exact absurd hres (by simp)
      · intro n2 prev hres
        revert hres
        simp only [MNode.insert, LNode.insert]
        rcases hfind : LNode.find l k with _ | ⟨ke, ve⟩
        · have hknot : k ∉ MNode.keys (MNode.L l) := find_not_mem_of_none hfind
          rcases hf : Flag.newAtDepth (hv k) d with _ | f <;> intro hres
          · exact absurd hres (by simp)
          · rw [lift_shape.2 n2 prev hres]
            exact isSome_none_iff hknot
        · have hkmem : k ∈ MNode.keys (MNode.L l) := find_mem_of_some hfind
          cases replace with
          | false =>
            intro hres
            exact absurd hres (by simp)
          | true =>
            rcases hrem : removeFromLNode l k with _ | ⟨l2, pk, pv⟩ | ⟨s2, pk, pv⟩ <;> intro hres
            · exact absurd hres (by simp)
            · injection hres with h1 h2
              rw [← h2]
              exact isSome_some_iff hkmem
            · injection hres with h1 h2
              rw [← h2]
              exact isSome_some_iff hkmem
    · -- SNode
      constructor
      · intro k0 v0 hres
        revert hres
        simp only [MNode.insert, SNode.insert]
        by_cases hsk : s.key = k
        · rw [if_pos hsk]
          cases replace with
          | false =>
            intro hres
            refine ⟨rfl, ?_⟩
            simp [MNode.keys, MNode.entries, hsk]
          | true =>
            intro hres
            exact absurd hres (by simp)
        · rw [if_neg hsk]
          rcases hf : Flag.newAtDepth (hv k) d with _ | f <;> intro hres
          · by_cases hh : hv s.key = hv k
            · rw [if_pos hh] at hres
              exact absurd hres (by simp)
            · rw [if_neg hh] at hres
              exact absurd hres (by simp)
          · exact absurd hres (lift_shape.1 k0 v0)
      · intro n2 prev hres
        revert hres
        simp only [MNode.insert, SNode.insert]
        by_cases hsk : s.key = k
        · rw [if_pos hsk]
          cases replace with
          | false =>
            intro hres
            exact absurd hres (by simp)
          | true =>
            intro hres
            injection hres with h1 h2
            rw [← h2]
            exact isSome_some_iff (by simp [MNode.keys, MNode.entries, hsk])
        · have hknot : k ∉ MNode.keys (MNode.S s) := by
            simp [MNode.keys, MNode.entries]
            intro hc
            exact hsk hc.symm
          rw [if_neg hsk]
          rcases hf : Flag.newAtDepth (hv k) d with _ | f <;> intro hres
          · by_cases hh : hv s.key = hv k
            · rw [if_pos hh] at hres
              injection hres with h1 h2
              rw [← h2]
              exact isSome_none_iff hknot
            · rw [if_neg hh] at hres
              exact absurd hres (by simp)
          · rw [lift_shape.2 n2 prev hres]
            exact isSome_none_iff hknot

/-- C4: on a well-formed trie a successful insert reports a previous
entry exactly when replace was requested and an entry with an equal key
already existed; a replace=false success, and an absent key, both report
none (and the Err outcome only happens with replace=false on a present
key). -/
theorem claim_C4 (hv : K → Nat) (t : HashTrie K V) (k : K) (v : V) (replace : Bool)
    (hwf : HashTrie.wf hv t = true) :
    match HashTrie.insert hv t k v replace with
    | .ok _ prev => prev.isSome = true ↔ (replace = true ∧ k ∈ MNode.keys t.root)
    | .err _ _ => replace = false ∧ k ∈ MNode.keys t.root
    | .panicked => True := by
  have hag : agreesBelow (hv k) 0 0 = true := by
    simp [agreesBelow, Nat.mod_one]
  have hchar := insert_char hv (MNode.tsize t.root) t.root (le_refl _) 0 0 k v replace hwf hag
  have hflag0 : Flag.newAtDepth (hv k) 0 = some (Flag.new (hv k)) := by
    simp [Flag.new, Flag.newAtDepth]
  rcases hres : MNode.insert hv t.root k v (some (Flag.new (hv k))) replace
    with ⟨k0, v0⟩ | ⟨n2, prev⟩ | _
  · have hins : HashTrie.insert hv t k v replace = .err k0 v0 := by
      unfold HashTrie.insert
      rw [hres]
    rw [hins]
    exact hchar.1 k0 v0 (by rw [hflag0]; exact hres)
  · have hins : HashTrie.insert hv t k v replace = .ok ⟨n2⟩ prev := by
      unfold HashTrie.insert
      rw [hres]
    rw [hins]
    exact hchar.2 n2 prev (by rw [hflag0]; exact hres)
  · have hins : HashTrie.insert hv t k v replace = .panicked := by
      unfold HashTrie.insert
      rw [hres]
    rw [hins]
    trivial

/-- A singleton trie used as the C4 witness input. -/
def trieC4 : HashTrie Nat Nat := ⟨.S ⟨1, 10⟩⟩

/-- Witness for C4: a replacing insert of the already-present key 1 into
a well-formed singleton trie reports the previous entry. -/
theorem claim_C4_witness :
    HashTrie.wf idh trieC4 = true ∧
    (match HashTrie.insert idh trieC4 1 20 true with
    | .ok _ prev => prev.isSome = true ↔ ((true : Bool) = true ∧ 1 ∈ MNode.keys trieC4.root)
    | .err _ _ => (true : Bool) = false ∧ 1 ∈ MNode.keys trieC4.root
    | .panicked => True) :=
  ⟨by decide, claim_C4 idh trieC4 1 20 true (by decide)⟩

/-! Support for C7: symmetry of the joint walk up to collision-chain
reordering, away from the out-of-fuel divergence of the gather loop. -/

/-- Equality of optional produced nodes: both absent, or both present and
structurally equal up to chain reordering. -/
def optEqbM : Option (MNode K V) → Option (MNode K V) → Bool
| none, none => true
| some a, some c => MNode.eqb a c
| _, _ => false

/-- The joint results of the two operand orders agree: an out-of-fuel
side excuses the comparison (the gather-loop bug), otherwise panics
coincide and produced nodes are equal. -/
def JTR.symmEq : JTR K V → JTR K V → Bool
| .outOfFuel, _ => true
| _, .outOfFuel => true
| .panicked, .panicked => true
| .ok r1, .ok r2 => optEqbM r1 r2
| _, _ => false

/-- Pointwise agreement of kept-slot lists: same slots, equal children. -/
def keptEqb : List (Nat × MNode K V) → List (Nat × MNode K V) → Bool
| [], [] => true
| (i, a) :: r1, (j, c) :: r2 => i == j && MNode.eqb a c && keptEqb r1 r2
| _, _ => false

/-- The slot-walk results of the two operand orders agree. -/
def JTRL.symmEq : JTRL K V → JTRL K V → Bool
| .outOfFuel, _ => true
| _, .outOfFuel => true
| .panicked, .panicked => true
| .ok k1, .ok k2 => keptEqb k1 k2
| _, _ => false

theorem optEqbM_refl (r : Option (MNode K V)) : optEqbM r r = true := by
  cases r with
  | none => rfl
  | some n => simpa [optEqbM] using eqb_refl n

theorem symmEq_refl (r : JTR K V) : JTR.symmEq r r = true := by
  cases r with
  | ok o => simpa [JTR.symmEq] using optEqbM_refl o
  | outOfFuel => rfl
  | panicked => rfl

theorem symmEq_oof_right (r : JTR K V) : JTR.symmEq r .outOfFuel = true := by
  cases r <;> rfl

theorem symmEqL_oof_right (r : JTRL K V) : JTRL.symmEq r .outOfFuel = true := by
  cases r <;> rfl

theorem symmEq_oof_left (r : JTR K V) : JTR.symmEq .outOfFuel r = true := by
  cases r <;> rfl

theorem symmEqL_oof_left (r : JTRL K V) : JTRL.symmEq .outOfFuel r = true := by
  cases r <;> rfl

/-- Equal nodes have the same leaf shape. -/
theorem eqb_isLeafSL {a c : MNode K V} (h : MNode.eqb a c = true) :
    MNode.isLeafSL a = MNode.isLeafSL c := by
  cases a <;> cases c <;> simp [MNode.eqb, MNode.isLeafSL] at h ⊢

theorem keptEqb_maskSum : ∀ {k1 k2 : List (Nat × MNode K V)}, keptEqb k1 k2 = true →
    maskSum k1 = maskSum k2 := by
  intro k1
  induction k1 with
  | nil =>
    intro k2 h
    cases k2 with
    | nil => rfl
    | cons p r => rcases p with ⟨j, c⟩; simp [keptEqb] at h
  | cons p r1 ih =>
    intro k2 h
    rcases p with ⟨i, a⟩
    cases k2 with
    | nil => simp [keptEqb] at h
    | cons q r2 =>
      rcases q with ⟨j, c⟩
      simp only [keptEqb, Bool.and_eq_true, beq_iff_eq] at h
      have hr := ih h.2
      simp only [maskSum, List.foldr_cons] at hr ⊢
      rw [h.1.1, hr]

theorem keptEqb_children : ∀ {k1 k2 : List (Nat × MNode K V)}, keptEqb k1 k2 = true →
    MNode.eqbList (k1.map Prod.snd) (k2.map Prod.snd) = true := by
  intro k1
  induction k1 with
  | nil =>
    intro k2 h
    cases k2 with
    | nil => rfl
    | cons p r => rcases p with ⟨j, c⟩; simp [keptEqb] at h
  | cons p r1 ih =>
    intro k2 h
    rcases p with ⟨i, a⟩
    cases k2 with
    | nil => simp [keptEqb] at h
    | cons q r2 =>
      rcases q with ⟨j, c⟩
      simp only [keptEqb, Bool.and_eq_true, beq_iff_eq] at h
      simp only [List.map_cons, MNode.eqbList, Bool.and_eq_true]
      exact ⟨h.1.2, ih h.2⟩

/-- Reassembly of pointwise-equal kept lists yields equal nodes. -/
theorem assembleSlots_congr : ∀ {k1 k2 : List (Nat × MNode K V)}, keptEqb k1 k2 = true →
    optEqbM (assembleSlots k1) (assembleSlots k2) = true := by
  intro k1 k2 h
  match k1, k2 with
  | [], [] => rfl
  | [], (j, c) :: r2 => simp [keptEqb] at h
  | (i, a) :: r1, [] => simp [keptEqb] at h
  | [(i, a)], [(j, c)] =>
    simp only [keptEqb, Bool.and_eq_true, beq_iff_eq] at h
    have hsh := eqb_isLeafSL h.1.2
    simp only [assembleSlots]
    by_cases hla : MNode.isLeafSL a = true
    · have hlc : MNode.isLeafSL c = true := by rw [← hsh]; exact hla
      rw [if_pos hla, if_pos hlc]
      simpa [optEqbM] using h.1.2
    · have hlc : ¬ MNode.isLeafSL c = true := by rw [← hsh]; exact hla
      rw [if_neg hla, if_neg hlc]
      simp [optEqbM, MNode.eqb, CNode.eqb, mkCNode, MNode.eqbList, h.1.1, h.1.2]
  | (i, a) :: (i2, a2) :: r1, [(j, c)] =>
    simp [keptEqb] at h
  | [(i, a)], (j, c) :: (j2, c2) :: r2 =>
    simp [keptEqb] at h
  | (i, a) :: (i2, a2) :: r1, (j, c) :: (j2, c2) :: r2 =>
    have hm := keptEqb_maskSum h
    have hc := keptEqb_children h
    simp only [assembleSlots, optEqbM, MNode.eqb, CNode.eqb, mkCNode, Bool.and_eq_true,
      beq_iff_eq]
    exact ⟨hm, hc⟩

/-- Consing pointwise-agreeing steps onto agreeing rests keeps the
slot-walk results agreeing. -/
theorem jtrlCons_symm {i : Nat} {s1 s2 : JTR K V} {r1 r2 : JTRL K V}
    (hs : JTR.symmEq s1 s2 = true) (hr : JTRL.symmEq r1 r2 = true) :
    JTRL.symmEq (jtrlCons i s1 r1) (jtrlCons i s2 r2) = true := by
  cases s1 with
  | outOfFuel => simp [jtrlCons, JTRL.symmEq]
  | panicked =>
    cases s2 with
    | outOfFuel => exact symmEqL_oof_right _
    | panicked => simp [jtrlCons, JTRL.symmEq]
    | ok o => simp [JTR.symmEq] at hs
  | ok o1 =>
    cases s2 with
    | outOfFuel => exact symmEqL_oof_right _
    | panicked => simp [JTR.symmEq] at hs
    | ok o2 =>
      cases o1 with
      | none =>
        cases o2 with
        | none => simpa [jtrlCons] using hr
        | some m2 => simp [JTR.symmEq, optEqbM] at hs
      | some m1 =>
        cases o2 with
        | none => simp [JTR.symmEq, optEqbM] at hs
        | some m2 =>
          have hm : MNode.eqb m1 m2 = true := by simpa [JTR.symmEq, optEqbM] using hs
          cases r1 with
          | outOfFuel => simp [jtrlCons, JTRL.symmEq]
          | panicked =>
            cases r2 with
            | outOfFuel => exact symmEqL_oof_right _
            | panicked => simp [jtrlCons, JTRL.symmEq]
            | ok kept2 => simp [JTRL.symmEq] at hr
          | ok kept1 =>
            cases r2 with
            | outOfFuel => exact symmEqL_oof_right _
            | panicked => simp [JTRL.symmEq] at hr
            | ok kept2 =>
              have hk : keptEqb kept1 kept2 = true := by simpa [JTRL.symmEq] using hr
              simp [jtrlCons, JTRL.symmEq, keptEqb, hm, hk]

/-- A chain built by consing a list of optional transmuted entries. -/
def chainOf (l : List (Option (K × V))) : Option (LNodeNext K V) :=
  l.foldr consTransmute none

theorem consTransmute_none (e : Option (K × V)) :
    consTransmute e (none : Option (LNodeNext K V)) =
      e.map (fun p => .S ⟨p.1, p.2⟩) := by
  rcases e with _ | ⟨k, v⟩ <;> rfl

theorem chainOf_none_iff : ∀ l : List (Option (K × V)),
    chainOf l = none ↔ l.filterMap id = [] := by
  intro l
  induction l with
  | nil => simp [chainOf]
  | cons e t ih =>
    rcases e with _ | ⟨k, v⟩
    · simpa [chainOf, consTransmute] using ih
    · constructor
      · intro h
        exfalso
        rw [show chainOf (some (k, v) :: t) = consTransmute (some (k, v)) (chainOf t) from rfl]
          at h
        rcases ht : chainOf t with _ | c
        · rw [ht] at h; simp [consTransmute] at h
        · rw [ht] at h
          rcases c with l2 | s2 <;> simp [consTransmute] at h
      · intro h
        simp at h

theorem chainOf_entries : ∀ {l : List (Option (K × V))} {c : LNodeNext K V},
    chainOf l = some c → LNodeNext.entries c = l.filterMap id := by
  intro l
  induction l with
  | nil => intro c h; simp [chainOf] at h
  | cons e t ih =>
    intro c h
    rcases e with _ | ⟨k, v⟩
    · rw [show chainOf (none :: t) = chainOf t from rfl] at h
      simpa using ih h
    · rw [show chainOf (some (k, v) :: t) = consTransmute (some (k, v)) (chainOf t) from rfl]
        at h
      rcases ht : chainOf t with _ | c2
      · rw [ht] at h
        simp [consTransmute] at h
        have hnil := (chainOf_none_iff t).mp ht
        rw [← h]
        simp [LNodeNext.entries, SNode.key, SNode.value, hnil]
      · rw [ht] at h
        have he2 := ih ht
        rcases c2 with l2 | s2 <;> simp only [consTransmute] at h <;>
          (injection h with hc; subst hc) <;> simp [LNodeNext.entries] at he2 <;>
          simp [LNodeNext.entries, entries_new, he2]

/-- Chains built from permuted lists of optional entries are equal as
nodes (unordered chain comparison). -/
theorem chainOf_perm_eqb {l1 l2 : List (Option (K × V))} (hp : l1.Perm l2) :
    optEqbM ((chainOf l1).map LNodeNext.toMNode) ((chainOf l2).map LNodeNext.toMNode) = true := by
  have hfp : (l1.filterMap id).Perm (l2.filterMap id) := hp.filterMap id
  rcases hc1 : chainOf l1 with _ | c1 <;> rcases hc2 : chainOf l2 with _ | c2
  · simp [optEqbM]
  · exfalso
    have h1 := (chainOf_none_iff l1).mp hc1
    have h2 := chainOf_entries hc2
    rw [h1] at hfp
    have hnil : l2.filterMap id = [] := hfp.symm.eq_nil
    rw [hnil] at h2
    have hone := one_le_entries c2
    rw [h2] at hone
    simp at hone
  · exfalso
    have h2 := (chainOf_none_iff l2).mp hc2
    have h1 := chainOf_entries hc1
    rw [h2] at hfp
    have hnil : l1.filterMap id = [] := hfp.eq_nil
    rw [hnil] at h1
    have hone := one_le_entries c1
    rw [h1] at hone
    simp at hone
  · have h1 := chainOf_entries hc1
    have h2 := chainOf_entries hc2
    have hperm : (LNodeNext.entries c1).Perm (LNodeNext.entries c2) := by
      rw [h1, h2]
      exact hfp
    rcases c1 with la | sa <;> rcases c2 with lb | sb
    · have hip : @List.isPerm _ instBEqOfDecidableEq la.entries lb.entries = true := by
        rw [List.isPerm_iff]
        simpa [LNodeNext.entries] using hperm
      simpa [optEqbM, LNodeNext.toMNode, MNode.eqb] using hip
    · exfalso
      have h2a := two_le_entries la
      have hl := hperm.length_eq
      simp [LNodeNext.entries] at hl
      omega
    · exfalso
      have h2b := two_le_entries lb
      have hl := hperm.length_eq
      simp [LNodeNext.entries] at hl
      omega
    · simp only [LNodeNext.entries] at hperm
      have := List.singleton_perm_singleton.mp hperm
      injection this with hk hvv
      simp [optEqbM, LNodeNext.toMNode, MNode.eqb, hk, hvv]

/-- Two hashes that agree below a depth and share the slot index there
agree one level deeper. -/
theorem agreesBelow_succ_of_index {h1 h2 d : Nat} (hag : agreesBelow h1 h2 d = true)
    (hi : flagIndex h1 d = flagIndex h2 d) : agreesBelow h1 h2 (d + 1) = true := by
  simp only [agreesBelow, beq_iff_eq] at hag ⊢
  rw [Nat.mod_pow_succ, Nat.mod_pow_succ, hag]
  rw [show h1 / 4 ^ d % 4 = h2 / 4 ^ d % 4 from hi]

/-- Hashes that agree on an anchor agree on each other. -/
theorem agreesBelow_of_anchor {h1 h2 anchor d : Nat}
    (a1 : agreesBelow h1 anchor d = true) (a2 : agreesBelow h2 anchor d = true) :
    agreesBelow h1 h2 d = true := by
  simp only [agreesBelow, beq_iff_eq] at a1 a2 ⊢
  rw [a1, a2]

/-- The lift of two distinct compatible hashes is order-independent. -/
theorem cnodeLiftGo_comm : ∀ (fuel : Nat) (a c : MNode K V) (ha hb d : Nat),
    ha ≠ hb → ha < 256 → hb < 256 → agreesBelow ha hb d = true → d + fuel = 4 →
    cnodeLiftGo a ha c hb d fuel = cnodeLiftGo c hb a ha d fuel := by
  intro fuel
  induction fuel with
  | zero =>
    intro a c ha hb d hne h1 h2 hag hd
    exfalso
    have hmod : ha % 4 ^ d = hb % 4 ^ d := by simpa [agreesBelow] using hag
    rw [mod_4pow_of_lt (by omega) h1, mod_4pow_of_lt (by omega) h2] at hmod
    exact hne hmod
  | succ rem ih =>
    intro a c ha hb d hne h1 h2 hag hd
    simp only [cnodeLiftGo]
    by_cases hii : flagIndex ha d = flagIndex hb d
    · rw [if_pos hii, if_pos hii.symm]
      rw [ih a c ha hb (d + 1) hne h1 h2 (agreesBelow_succ_of_index hag hii) (by omega), hii]
    · have hii2 : ¬ flagIndex hb d = flagIndex ha d := fun hx => hii hx.symm
      rw [if_neg hii, if_neg hii2]
      rcases Nat.lt_or_ge (flagIndex ha d) (flagIndex hb d) with hlt | hge
      · rw [if_pos hlt, if_neg (by omega)]
        rw [Nat.add_comm]
      · have hlt2 : flagIndex hb d < flagIndex ha d := by omega
        rw [if_neg (by omega), if_pos hlt2]
        rw [Nat.add_comm]

theorem cnodeLift_comm {a c : MNode K V} {ha hb d : Nat} (hne : ha ≠ hb)
    (h1 : ha < 256) (h2 : hb < 256) (hag : agreesBelow ha hb d = true) (hd : d ≤ 4) :
    cnodeLift a ha c hb d = cnodeLift c hb a ha d :=
  cnodeLiftGo_comm (4 - d) a c ha hb d hne h1 h2 hag (by omega)

/-- jointValues is symmetric under swapping the entries and the
callbacks, up to chain reordering. -/
theorem jointValues_symm (k1 k2 : K) (v1 v2 : V) (b : K → V → K → V → Option (K × V))
    (lop rop : K → V → Option (K × V)) :
    optEqbM ((jointValues k1 v1 k2 v2 b lop rop).map LNodeNext.toMNode)
      ((jointValues k2 v2 k1 v1 (swapBoth b) rop lop).map LNodeNext.toMNode) = true := by
  by_cases hk : k1 = k2
  · simp only [jointValues, if_pos hk, if_pos hk.symm, swapBoth]
    exact optEqbM_refl _
  · have hk2 : ¬ k2 = k1 := fun hx => hk hx.symm
    simp only [jointValues, if_neg hk, if_neg hk2]
    rcases lop k1 v1 with _ | e1 <;> rcases rop k2 v2 with _ | e2
    · rfl
    · simp [optEqbM, LNodeNext.toMNode, MNode.eqb]
    · simp [optEqbM, LNodeNext.toMNode, MNode.eqb]
    · have hip : @List.isPerm _ instBEqOfDecidableEq
          (LNode.new e1.1 e1.2 (.S ⟨e2.1, e2.2⟩)).entries
          (LNode.new e2.1 e2.2 (.S ⟨e1.1, e1.2⟩)).entries = true := by
        rw [List.isPerm_iff]
        simp only [entries_new, LNodeNext.entries]
        exact List.Perm.swap _ _ _
      simpa [optEqbM, LNodeNext.toMNode, MNode.eqb] using hip

/-- The gather loop on a two-entry right chain returns its entries. -/
theorem gather_two {right : LNode K V} {s : SNode K V} (h : right.next = .S s) (fuel : Nat) :
    gatherRights right (fuel + 1) = some [(right.key, right.value), (s.key, s.value)] := by
  simp [gatherRights, gatherGo, h]

theorem takeMatch_one_hit {k a : K} {bv : V} (h : k = a) :
    takeMatch k [(a, bv)] = some ((a, bv), []) := by
  subst h
  simp [takeMatch, List.findIdx?, listSwapRemove, getIn]

theorem takeMatch_one_miss {k a : K} {bv : V} (h : ¬ k = a) :
    takeMatch k [(a, bv)] = none := by
  simp [takeMatch, List.findIdx?, h]

theorem takeMatch_two_hit1 {k a c : K} {bv dv : V} (h : k = a) :
    takeMatch k [(a, bv), (c, dv)] = some ((a, bv), [(c, dv)]) := by
  subst h
  simp [takeMatch, List.findIdx?, listSwapRemove, getIn]

theorem takeMatch_two_hit2 {k a c : K} {bv dv : V} (h1 : ¬ k = a) (h2 : k = c) :
    takeMatch k [(a, bv), (c, dv)] = some ((c, dv), [(a, bv)]) := by
  subst h2
  simp [takeMatch, List.findIdx?, listSwapRemove, getIn, h1]

theorem takeMatch_two_miss {k a c : K} {bv dv : V} (h1 : ¬ k = a) (h2 : ¬ k = c) :
    takeMatch k [(a, bv), (c, dv)] = none := by
  simp [takeMatch, List.findIdx?, h1, h2]

theorem symmEq_ok_ok (r1 r2 : Option (MNode K V)) :
    JTR.symmEq (.ok r1) (.ok r2) = optEqbM r1 r2 := rfl

/-- The equal-hash branch of jtLL never terminates when the right chain
has three or more entries: the gather loop resets its cursor. -/
theorem jtLL_oof {hv : K → Nat} {t0 right : LNode K V} {l0 : LNode K V}
    (hhash : hv t0.key = hv right.key) (hlen : right.next = .L l0)
    {b : K → V → K → V → Option (K × V)} {lop rop : K → V → Option (K × V)}
    {depth fuel : Nat} :
    jtLL hv t0 right b lop rop depth fuel = .outOfFuel := by
  simp only [jtLL, hhash, if_true, gatherRights, gather_diverges hlen fuel]

/-- The singleton-versus-singleton joint walk is symmetric. -/
theorem jtSS_symm (hv : K → Nat) (s1 s2 : SNode K V) (b : K → V → K → V → Option (K × V))
    (lop rop : K → V → Option (K × V)) (depth : Nat)
    (h1 : hv s1.key < 256) (h2 : hv s2.key < 256)
    (hag : agreesBelow (hv s1.key) (hv s2.key) depth = true) (hd : depth ≤ 4) :
    JTR.symmEq (jtSS hv s1 s2 b lop rop depth)
      (jtSS hv s2 s1 (swapBoth b) rop lop depth) = true := by
  by_cases hh : hv s1.key = hv s2.key
  · simp only [jtSS, if_pos hh, if_pos hh.symm]
    rw [symmEq_ok_ok]
    exact jointValues_symm s1.key s2.key s1.value s2.value b lop rop
  · have hh2 : ¬ hv s2.key = hv s1.key := fun hx => hh hx.symm
    simp only [jtSS, if_neg hh, if_neg hh2]
    rcases hf1 : Flag.newAtDepth (hv s1.key) depth with _ | f1 <;>
      rcases hf2 : Flag.newAtDepth (hv s2.key) depth with _ | f2
    · rfl
    · rfl
    · rfl
    · rcases he1 : lop s1.key s1.value with _ | e1 <;>
        rcases he2 : rop s2.key s2.value with _ | e2
      · rfl
      · exact symmEq_refl _
      · exact symmEq_refl _
      · show JTR.symmEq
          (.ok (some (.C (cnodeLift (.S ⟨e1.1, e1.2⟩) (hv s1.key) (.S ⟨e2.1, e2.2⟩)
            (hv s2.key) depth))))
          (.ok (some (.C (cnodeLift (.S ⟨e2.1, e2.2⟩) (hv s2.key) (.S ⟨e1.1, e1.2⟩)
            (hv s1.key) depth)))) = true
        rw [cnodeLift_comm hh h1 h2 hag hd]
        exact symmEq_refl _

/-- The two-against-two collision-chain joint walk is symmetric up to
chain reordering (the only shape whose gather loop terminates). -/
theorem jtLL_two_symm (hv : K → Nat) (k1 k2 k3 k4 : K) (v1 v2 v3 v4 : V) (z1 z2 : Nat)
    (b : K → V → K → V → Option (K × V)) (lop rop : K → V → Option (K × V))
    (depth fuel : Nat) (hh : hv k1 = hv k3) (h12 : ¬ k1 = k2) (h34 : ¬ k3 = k4) :
    JTR.symmEq
      (jtLL hv (.mk k1 v1 (.S ⟨k2, v2⟩) z1) (.mk k3 v3 (.S ⟨k4, v4⟩) z2) b lop rop depth
        (fuel + 1))
      (jtLL hv (.mk k3 v3 (.S ⟨k4, v4⟩) z2) (.mk k1 v1 (.S ⟨k2, v2⟩) z1) (swapBoth b) rop lop
        depth (fuel + 1)) = true := by
  by_cases m23 : k2 = k3
  · subst m23
    by_cases m14 : k1 = k4
    · subst m14
      rw [show jtLL hv (LNode.mk k1 v1 (.S ⟨k2, v2⟩) z1) (LNode.mk k2 v3 (.S ⟨k1, v4⟩) z2)
          b lop rop depth (fuel + 1) =
          .ok ((chainOf [b k1 v1 k1 v4, b k2 v2 k2 v3]).map LNodeNext.toMNode) from by
        simp [jtLL, jtLLImpl, LNode.key, LNode.value, LNode.next, SNode.key, SNode.value,
          gatherRights, gatherGo, jointValues, swapBoth, chainOf, consTransmute_none, hh,
          takeMatch_two_hit1 (Eq.refl k2), takeMatch_one_hit (Eq.refl k1)]]
      rw [show jtLL hv (LNode.mk k2 v3 (.S ⟨k1, v4⟩) z2) (LNode.mk k1 v1 (.S ⟨k2, v2⟩) z1)
          (swapBoth b) rop lop depth (fuel + 1) =
          .ok ((chainOf [b k2 v2 k2 v3, b k1 v1 k1 v4]).map LNodeNext.toMNode) from by
        simp [jtLL, jtLLImpl, LNode.key, LNode.value, LNode.next, SNode.key, SNode.value,
          gatherRights, gatherGo, jointValues, swapBoth, chainOf, consTransmute_none, hh,
          takeMatch_two_hit1 (Eq.refl k1), takeMatch_one_hit (Eq.refl k2)]]
      rw [symmEq_ok_ok]
      exact chainOf_perm_eqb (List.Perm.swap (b k2 v2 k2 v3) (b k1 v1 k1 v4) [])
    ·
      rw [show jtLL hv (LNode.mk k1 v1 (.S ⟨k2, v2⟩) z1) (LNode.mk k2 v3 (.S ⟨k4, v4⟩) z2)
          b lop rop depth (fuel + 1) =
          .ok ((chainOf [rop k4 v4, lop k1 v1, b k2 v2 k2 v3]).map LNodeNext.toMNode) from by
        simp [jtLL, jtLLImpl, LNode.key, LNode.value, LNode.next, SNode.key, SNode.value,
          gatherRights, gatherGo, jointValues, swapBoth, chainOf, consTransmute_none, hh,
          takeMatch_two_hit1 (Eq.refl k2), takeMatch_one_miss m14]]
      rw [show jtLL hv (LNode.mk k2 v3 (.S ⟨k4, v4⟩) z2) (LNode.mk k1 v1 (.S ⟨k2, v2⟩) z1)
          (swapBoth b) rop lop depth (fuel + 1) =
          .ok ((chainOf [lop k1 v1, b k2 v2 k2 v3, rop k4 v4]).map LNodeNext.toMNode) from by
        simp [jtLL, jtLLImpl, LNode.key, LNode.value, LNode.next, SNode.key, SNode.value,
          gatherRights, gatherGo, jointValues, swapBoth, chainOf, consTransmute_none, hh,
          takeMatch_two_miss (fun hx => m14 hx.symm) (fun hx => h34 hx.symm),
          takeMatch_two_hit2 (fun hx => h12 hx.symm) (Eq.refl k2)]]
      rw [symmEq_ok_ok]
      exact chainOf_perm_eqb (@List.perm_append_comm _ [rop k4 v4] [lop k1 v1, b k2 v2 k2 v3])
  · by_cases m24 : k2 = k4
    · subst m24
      by_cases m13 : k1 = k3
      · subst m13
        rw [show jtLL hv (LNode.mk k1 v1 (.S ⟨k2, v2⟩) z1) (LNode.mk k1 v3 (.S ⟨k2, v4⟩) z2)
            b lop rop depth (fuel + 1) =
            .ok ((chainOf [b k1 v1 k1 v3, b k2 v2 k2 v4]).map LNodeNext.toMNode) from by
          simp [jtLL, jtLLImpl, LNode.key, LNode.value, LNode.next, SNode.key, SNode.value,
            gatherRights, gatherGo, jointValues, swapBoth, chainOf, consTransmute_none, hh,
            takeMatch_two_hit2 (fun hx => h12 hx.symm) (Eq.refl k2), takeMatch_one_hit (Eq.refl k1)]]
        rw [show jtLL hv (LNode.mk k1 v3 (.S ⟨k2, v4⟩) z2) (LNode.mk k1 v1 (.S ⟨k2, v2⟩) z1)
            (swapBoth b) rop lop depth (fuel + 1) =
            .ok ((chainOf [b k1 v1 k1 v3, b k2 v2 k2 v4]).map LNodeNext.toMNode) from by
          simp [jtLL, jtLLImpl, LNode.key, LNode.value, LNode.next, SNode.key, SNode.value,
            gatherRights, gatherGo, jointValues, swapBoth, chainOf, consTransmute_none, hh,
            takeMatch_two_hit2 (fun hx => h12 hx.symm) (Eq.refl k2), takeMatch_one_hit (Eq.refl k1)]]
        rw [symmEq_ok_ok]
        exact chainOf_perm_eqb (List.Perm.refl _)
      ·
        rw [show jtLL hv (LNode.mk k1 v1 (.S ⟨k2, v2⟩) z1) (LNode.mk k3 v3 (.S ⟨k2, v4⟩) z2)
            b lop rop depth (fuel + 1) =
            .ok ((chainOf [rop k3 v3, lop k1 v1, b k2 v2 k2 v4]).map LNodeNext.toMNode) from by
          simp [jtLL, jtLLImpl, LNode.key, LNode.value, LNode.next, SNode.key, SNode.value,
            gatherRights, gatherGo, jointValues, swapBoth, chainOf, consTransmute_none, hh,
            takeMatch_two_hit2 m23 (Eq.refl k2), takeMatch_one_miss m13]]
        rw [show jtLL hv (LNode.mk k3 v3 (.S ⟨k2, v4⟩) z2) (LNode.mk k1 v1 (.S ⟨k2, v2⟩) z1)
            (swapBoth b) rop lop depth (fuel + 1) =
            .ok ((chainOf [lop k1 v1, rop k3 v3, b k2 v2 k2 v4]).map LNodeNext.toMNode) from by
          simp [jtLL, jtLLImpl, LNode.key, LNode.value, LNode.next, SNode.key, SNode.value,
            gatherRights, gatherGo, jointValues, swapBoth, chainOf, consTransmute_none, hh,
            takeMatch_two_hit2 (fun hx => h12 hx.symm) (Eq.refl k2),
            takeMatch_one_miss (fun hx => m13 hx.symm)]]
        rw [symmEq_ok_ok]
        exact chainOf_perm_eqb (List.Perm.swap (lop k1 v1) (rop k3 v3) [b k2 v2 k2 v4])
    · by_cases m13 : k1 = k3
      · subst m13
        rw [show jtLL hv (LNode.mk k1 v1 (.S ⟨k2, v2⟩) z1) (LNode.mk k1 v3 (.S ⟨k4, v4⟩) z2)
            b lop rop depth (fuel + 1) =
            .ok ((chainOf [rop k4 v4, b k1 v1 k1 v3, lop k2 v2]).map LNodeNext.toMNode) from by
          simp [jtLL, jtLLImpl, LNode.key, LNode.value, LNode.next, SNode.key, SNode.value,
            gatherRights, gatherGo, jointValues, swapBoth, chainOf, consTransmute_none, hh,
            takeMatch_two_miss (fun hx => h12 hx.symm) m24, takeMatch_two_hit1 (Eq.refl k1)]]
        rw [show jtLL hv (LNode.mk k1 v3 (.S ⟨k4, v4⟩) z2) (LNode.mk k1 v1 (.S ⟨k2, v2⟩) z1)
            (swapBoth b) rop lop depth (fuel + 1) =
            .ok ((chainOf [lop k2 v2, b k1 v1 k1 v3, rop k4 v4]).map LNodeNext.toMNode) from by
          simp [jtLL, jtLLImpl, LNode.key, LNode.value, LNode.next, SNode.key, SNode.value,
            gatherRights, gatherGo, jointValues, swapBoth, chainOf, consTransmute_none, hh,
            takeMatch_two_miss (fun hx => h34 hx.symm) (fun hx => m24 hx.symm),
            takeMatch_two_hit1 (Eq.refl k1)]]
        rw [symmEq_ok_ok]
        exact chainOf_perm_eqb ((List.reverse_perm _).symm)
      · by_cases m14 : k1 = k4
        · subst m14
          rw [show jtLL hv (LNode.mk k1 v1 (.S ⟨k2, v2⟩) z1) (LNode.mk k3 v3 (.S ⟨k1, v4⟩) z2)
              b lop rop depth (fuel + 1) =
              .ok ((chainOf [rop k3 v3, b k1 v1 k1 v4, lop k2 v2]).map LNodeNext.toMNode) from by
            simp [jtLL, jtLLImpl, LNode.key, LNode.value, LNode.next, SNode.key, SNode.value,
              gatherRights, gatherGo, jointValues, swapBoth, chainOf, consTransmute_none, hh,
              takeMatch_two_miss m23 (fun hx => h12 hx.symm), takeMatch_two_hit2 m13 (Eq.refl k1)]]
          rw [show jtLL hv (LNode.mk k3 v3 (.S ⟨k1, v4⟩) z2) (LNode.mk k1 v1 (.S ⟨k2, v2⟩) z1)
              (swapBoth b) rop lop depth (fuel + 1) =
              .ok ((chainOf [lop k2 v2, rop k3 v3, b k1 v1 k1 v4]).map LNodeNext.toMNode) from by
            simp [jtLL, jtLLImpl, LNode.key, LNode.value, LNode.next, SNode.key, SNode.value,
              gatherRights, gatherGo, jointValues, swapBoth, chainOf, consTransmute_none, hh,
              takeMatch_two_hit1 (Eq.refl k1), takeMatch_one_miss (fun hx => m23 hx.symm)]]
          rw [symmEq_ok_ok]
          exact chainOf_perm_eqb (@List.perm_append_comm _ [rop k3 v3, b k1 v1 k1 v4] [lop k2 v2])
        ·
          rw [show jtLL hv (LNode.mk k1 v1 (.S ⟨k2, v2⟩) z1) (LNode.mk k3 v3 (.S ⟨k4, v4⟩) z2)
              b lop rop depth (fuel + 1) =
              .ok ((chainOf [rop k4 v4, rop k3 v3, lop k1 v1, lop k2 v2]).map LNodeNext.toMNode) from by
            simp [jtLL, jtLLImpl, LNode.key, LNode.value, LNode.next, SNode.key, SNode.value,
              gatherRights, gatherGo, jointValues, swapBoth, chainOf, consTransmute_none, hh,
              takeMatch_two_miss m23 m24, takeMatch_two_miss m13 m14]]
          rw [show jtLL hv (LNode.mk k3 v3 (.S ⟨k4, v4⟩) z2) (LNode.mk k1 v1 (.S ⟨k2, v2⟩) z1)
              (swapBoth b) rop lop depth (fuel + 1) =
              .ok ((chainOf [lop k2 v2, lop k1 v1, rop k3 v3, rop k4 v4]).map LNodeNext.toMNode) from by
            simp [jtLL, jtLLImpl, LNode.key, LNode.value, LNode.next, SNode.key, SNode.value,
              gatherRights, gatherGo, jointValues, swapBoth, chainOf, consTransmute_none, hh,
              takeMatch_two_miss (fun hx => m14 hx.symm) (fun hx => m24 hx.symm),
              takeMatch_two_miss (fun hx => m13 hx.symm) (fun hx => m23 hx.symm)]]
          rw [symmEq_ok_ok]
          exact chainOf_perm_eqb ((List.reverse_perm _).symm)

/-- The chain-versus-chain joint walk is symmetric up to chain reordering,
away from the out-of-fuel divergence. -/
theorem jtLL_symm (hv : K → Nat) (l1 l2 : LNode K V) (b : K → V → K → V → Option (K × V))
    (lop rop : K → V → Option (K × V)) (depth anchor fuel : Nat)
    (hw1 : MNode.wf hv (.L l1) depth anchor = true)
    (hw2 : MNode.wf hv (.L l2) depth anchor = true) (hd : depth ≤ 4) :
    JTR.symmEq (jtLL hv l1 l2 b lop rop depth fuel)
      (jtLL hv l2 l1 (swapBoth b) rop lop depth fuel) = true := by
  by_cases hh : hv l1.key = hv l2.key
  · rcases hx2 : l2.next with l0 | t2
    · rw [jtLL_oof hh hx2]
      exact symmEq_oof_left _
    · rcases hx1 : l1.next with l0 | t1
      · rw [jtLL_oof hh.symm hx1]
        exact symmEq_oof_right _
      · have h12 : ¬ l1.key = t1.key := by
          simp only [MNode.wf, Bool.and_eq_true, decide_eq_true_eq] at hw1
          have hnd := hw1.2
          rw [show l1.entries = (l1.key, l1.value) :: l1.next.entries from by
            rcases l1 with ⟨a, bb, nx, zz⟩; rfl, hx1] at hnd
          simpa [LNodeNext.entries, List.nodup_cons] using hnd
        have h34 : ¬ l2.key = t2.key := by
          simp only [MNode.wf, Bool.and_eq_true, decide_eq_true_eq] at hw2
          have hnd := hw2.2
          rw [show l2.entries = (l2.key, l2.value) :: l2.next.entries from by
            rcases l2 with ⟨a, bb, nx, zz⟩; rfl, hx2] at hnd
          simpa [LNodeNext.entries, List.nodup_cons] using hnd
        rcases l1 with ⟨k1, v1, nx1, z1⟩
        rcases l2 with ⟨k3, v3, nx2, z2⟩
        simp only [LNode.next] at hx1 hx2
        subst hx1
        subst hx2
        rcases t1 with ⟨k2, v2⟩
        rcases t2 with ⟨k4, v4⟩
        simp only [LNode.key, SNode.key] at hh h12 h34
        cases fuel with
        | zero => simp [jtLL, LNode.key, hh, gatherRights, gatherGo, JTR.symmEq]
        | succ fuel =>
          exact jtLL_two_symm hv k1 k2 k3 k4 v1 v2 v3 v4 z1 z2 b lop rop depth fuel hh h12 h34
  · have hh2 : ¬ hv l2.key = hv l1.key := fun hx => hh hx.symm
    have hlt1 : hv l1.key < 256 := by
      simp only [MNode.wf, Bool.and_eq_true, decide_eq_true_eq] at hw1
      exact hw1.1.1.2
    have hlt2 : hv l2.key < 256 := by
      simp only [MNode.wf, Bool.and_eq_true, decide_eq_true_eq] at hw2
      exact hw2.1.1.2
    have hagg : agreesBelow (hv l1.key) (hv l2.key) depth = true := by
      simp only [MNode.wf, Bool.and_eq_true, decide_eq_true_eq] at hw1 hw2
      exact agreesBelow_of_anchor hw1.1.1.1 hw2.1.1.1
    simp only [jtLL, if_neg hh, if_neg hh2]
    rcases hf1 : Flag.newAtDepth (hv l1.key) depth with _ | f1 <;>
      rcases hf2 : Flag.newAtDepth (hv l2.key) depth with _ | f2
    · rfl
    · rfl
    · rfl
    · rcases hc1 : LNode.transmuteChain l1 lop with _ | a <;>
        rcases hc2 : LNode.transmuteChain l2 rop with _ | c
      · rfl
      · exact symmEq_refl _
      · exact symmEq_refl _
      · show JTR.symmEq
          (.ok (some (.C (cnodeLift (LNodeNext.toMNode a) (hv l1.key) (LNodeNext.toMNode c)
            (hv l2.key) depth))))
          (.ok (some (.C (cnodeLift (LNodeNext.toMNode c) (hv l2.key) (LNodeNext.toMNode a)
            (hv l1.key) depth)))) = true
        rw [cnodeLift_comm hh hlt1 hlt2 hagg hd]
        exact symmEq_refl _

/-- A child occupying a slot of a well-formed CNode is well-formed one
level deeper at the slot-extended anchor. -/
theorem wf_childAt {hv : K → Nat} {bm : Nat} {ch : List (MNode K V)} {d anchor i : Nat}
    {c : MNode K V} (hbm : bm < 16) (hi : i < 4)
    (hwfch : MNode.wfChildren hv (bitmapSlots bm) ch d anchor = true)
    (h : childAt bm ch i = some c) :
    MNode.wf hv c (d + 1) (anchor % 4 ^ d + i * 4 ^ d) = true := by
  by_cases hbit : hasBit bm i = true
  · simp only [childAt, if_pos hbit] at h
    exact wfChildren_pair (bitmapSlots bm) ch d anchor hwfch _ i c
      (slot_coherence bm hbm i hi hbit) h
  · simp only [childAt, if_neg hbit] at h
    simp at h

/-- The slot walk of the CNode-versus-CNode joint case is symmetric,
given symmetry of the per-child recursion. -/
theorem cjtcSlots_symm (hv : K → Nat) (N : Nat)
    (IH : ∀ (m1 m2 : MNode K V), MNode.tsize m1 + MNode.tsize m2 ≤ N →
      ∀ (bb : K → V → K → V → Option (K × V)) (lop rop : K → V → Option (K × V))
        (d anchor fuel : Nat), d ≤ 4 →
      MNode.wf hv m1 d anchor = true → MNode.wf hv m2 d anchor = true →
      JTR.symmEq (MNode.jt hv m1 m2 bb lop rop d fuel)
        (MNode.jt hv m2 m1 (swapBoth bb) rop lop d fuel) = true) :
    ∀ (slots : List Nat) (b1 : Nat) (ch1 : List (MNode K V)) (b2 : Nat)
      (ch2 : List (MNode K V)) (bb : K → V → K → V → Option (K × V))
      (lop rop : K → V → Option (K × V)) (d anchor fuel : Nat),
      (∀ i ∈ slots, i < 4) → b1 < 16 → b2 < 16 → d < 4 →
      MNode.tsizeList ch1 + MNode.tsizeList ch2 ≤ N →
      MNode.wfChildren hv (bitmapSlots b1) ch1 d anchor = true →
      MNode.wfChildren hv (bitmapSlots b2) ch2 d anchor = true →
      JTRL.symmEq (cjtcSlots hv b1 ch1 b2 ch2 bb lop rop d fuel slots)
        (cjtcSlots hv b2 ch2 b1 ch1 (swapBoth bb) rop lop d fuel slots) = true := by
  intro slots
  induction slots with
  | nil =>
    intro b1 ch1 b2 ch2 bb lop rop d anchor fuel hslots hb1 hb2 hd hsz hw1 hw2
    simp [cjtcSlots, JTRL.symmEq, keptEqb]
  | cons i rest ih =>
    intro b1 ch1 b2 ch2 bb lop rop d anchor fuel hslots hb1 hb2 hd hsz hw1 hw2
    simp only [cjtcSlots]
    apply jtrlCons_symm
    · rcases h1 : childAt b1 ch1 i with _ | ca <;> rcases h2 : childAt b2 ch2 i with _ | cb
      · exact symmEq_refl _
      · exact symmEq_refl _
      · exact symmEq_refl _
      · have hi4 : i < 4 := hslots i (by simp)
        have hwc1 := wf_childAt hb1 hi4 hw1 h1
        have hwc2 := wf_childAt hb2 hi4 hw2 h2
        have hts : MNode.tsize ca + MNode.tsize cb ≤ N := by
          have t1 := tsize_childAt h1
          have t2 := tsize_childAt h2
          omega
        exact IH ca cb hts bb lop rop (d + 1) (anchor % 4 ^ d + i * 4 ^ d) fuel (by omega)
          hwc1 hwc2
    · exact ih b1 ch1 b2 ch2 bb lop rop d anchor fuel (fun j hj => hslots j (by simp [hj]))
        hb1 hb2 hd hsz hw1 hw2

/-- The CNode-versus-CNode joint walk is symmetric, given symmetry of the
per-child recursion. -/
theorem cjtc_symm (hv : K → Nat) (N : Nat)
    (IH : ∀ (m1 m2 : MNode K V), MNode.tsize m1 + MNode.tsize m2 ≤ N →
      ∀ (bb : K → V → K → V → Option (K × V)) (lop rop : K → V → Option (K × V))
        (d anchor fuel : Nat), d ≤ 4 →
      MNode.wf hv m1 d anchor = true → MNode.wf hv m2 d anchor = true →
      JTR.symmEq (MNode.jt hv m1 m2 bb lop rop d fuel)
        (MNode.jt hv m2 m1 (swapBoth bb) rop lop d fuel) = true)
    (c1 c2 : CNode K V) (bb : K → V → K → V → Option (K × V))
    (lop rop : K → V → Option (K × V)) (d anchor fuel : Nat)
    (hn : MNode.tsize (.C c1) + MNode.tsize (.C c2) ≤ N + 1)
    (hw1 : MNode.wf hv (.C c1) d anchor = true)
    (hw2 : MNode.wf hv (.C c2) d anchor = true) :
    JTR.symmEq (cjtc hv c1 c2 bb lop rop d fuel)
      (cjtc hv c2 c1 (swapBoth bb) rop lop d fuel) = true := by
  rcases c1 with ⟨b1, ch1, s1⟩
  rcases c2 with ⟨b2, ch2, s2⟩
  have hw1e := hw1
  have hw2e := hw2
  simp only [MNode.wf, Bool.and_eq_true, decide_eq_true_eq] at hw1e hw2e
  have hsz : MNode.tsizeList ch1 + MNode.tsizeList ch2 ≤ N := by
    rw [show MNode.tsize (MNode.C (.mk b1 ch1 s1)) = 1 + MNode.tsizeList ch1 from rfl,
      show MNode.tsize (MNode.C (.mk b2 ch2 s2)) = 1 + MNode.tsizeList ch2 from rfl] at hn
    omega
  have hs := cjtcSlots_symm hv N IH [0, 1, 2, 3] b1 ch1 b2 ch2 bb lop rop d anchor fuel
    (by intro j hj; simp at hj; rcases hj with h | h | h | h <;> omega)
    hw1e.1.1.2 hw2e.1.1.2 hw1e.1.1.1 hsz hw1e.2 hw2e.2
  simp only [cjtc, CNode.bitmap, CNode.children]
  rcases hr1 : cjtcSlots hv b1 ch1 b2 ch2 bb lop rop d fuel [0, 1, 2, 3]
    with kept1 | _ | _ <;>
    rcases hr2 : cjtcSlots hv b2 ch2 b1 ch1 (swapBoth bb) rop lop d fuel [0, 1, 2, 3]
      with kept2 | _ | _ <;> rw [hr1, hr2] at hs
  · rw [symmEq_ok_ok]
    exact assembleSlots_congr (by simpa [JTRL.symmEq] using hs)
  · exact symmEq_oof_right _
  · simp [JTRL.symmEq] at hs
  · exact symmEq_oof_left _
  · exact symmEq_oof_left _
  · exact symmEq_oof_left _
  · simp [JTRL.symmEq] at hs
  · exact symmEq_oof_right _
  · rfl

/-- The joint walk of the node sum is symmetric on well-formed operands
up to chain reordering, away from the out-of-fuel divergence: the mixed
rows canonicalize by dispatching the swapped operands with swapped
callbacks into the same walker. -/
theorem jt_symm (hv : K → Nat) : ∀ (N : Nat) (n1 n2 : MNode K V),
    MNode.tsize n1 + MNode.tsize n2 ≤ N →
    ∀ (b : K → V → K → V → Option (K × V)) (lop rop : K → V → Option (K × V))
      (depth anchor fuel : Nat), depth ≤ 4 →
    MNode.wf hv n1 depth anchor = true → MNode.wf hv n2 depth anchor = true →
    JTR.symmEq (MNode.jt hv n1 n2 b lop rop depth fuel)
      (MNode.jt hv n2 n1 (swapBoth b) rop lop depth fuel) = true := by
  intro N
  induction N with
  | zero =>
    intro n1 n2 hn b lop rop depth anchor fuel hd hw1 hw2
    have t1 := one_le_tsize n1
    have t2 := one_le_tsize n2
    omega
  | succ N ih =>
    intro n1 n2 hn b lop rop depth anchor fuel hd hw1 hw2
    rcases n1 with c1 | l1 | s1 <;> rcases n2 with c2 | l2 | s2
    · simp only [MNode.jt]
      exact cjtc_symm hv N ih c1 c2 b lop rop depth anchor fuel hn hw1 hw2
    · simp only [MNode.jt]
      exact symmEq_refl _
    · simp only [MNode.jt]
      exact symmEq_refl _
    · simp only [MNode.jt]
      exact symmEq_refl _
    · simp only [MNode.jt]
      exact jtLL_symm hv l1 l2 b lop rop depth anchor fuel hw1 hw2 hd
    · simp only [MNode.jt]
      exact symmEq_refl _
    · simp only [MNode.jt]
      exact symmEq_refl _
    · simp only [MNode.jt]
      exact symmEq_refl _
    · simp only [MNode.jt]
      have h1 : hv s1.key < 256 := by
        simp only [MNode.wf, Bool.and_eq_true, decide_eq_true_eq] at hw1
        exact hw1.2
      have h2 : hv s2.key < 256 := by
        simp only [MNode.wf, Bool.and_eq_true, decide_eq_true_eq] at hw2
        exact hw2.2
      have hag : agreesBelow (hv s1.key) (hv s2.key) depth = true := by
        simp only [MNode.wf, Bool.and_eq_true, decide_eq_true_eq] at hw1 hw2
        exact agreesBelow_of_anchor hw1.1 hw2.1
      exact jtSS_symm hv s1 s2 b lop rop depth h1 h2 hag hd

/-- Constant-zero hasher for the C7 counterexample chains. -/
def hv0 : Nat → Nat := fun _ => 0

/-- A both-callback keeping the left entry. -/
def bJoin : Nat → Nat → Nat → Nat → Option (Nat × Nat) := fun k v _ _ => some (k, v)

/-- A unary callback keeping the entry. -/
def opKeep : Nat → Nat → Option (Nat × Nat) := fun k v => some (k, v)

/-- A two-entry collision chain. -/
def chainC7a : LNode Nat Nat := LNode.new 8 80 (.S ⟨9, 90⟩)

/-- A three-entry collision chain with the same hash. -/
def chainC7b : LNode Nat Nat := LNode.new 5 50 (.L (LNode.new 6 60 (.S ⟨7, 70⟩)))

/-- The trie rooted at the two-entry chain. -/
def trieC7a : HashTrie Nat Nat := ⟨.L chainC7a⟩

/-- The trie rooted at the three-entry chain. -/
def trieC7b : HashTrie Nat Nat := ⟨.L chainC7b⟩

/-- C7 counterexample: two well-formed tries whose joint transmute never
terminates in one operand order (for every fuel) yet terminates in the
other, so the swapped runs cannot yield equal tries: the gather loop of
joint_transmute_lnode diverges exactly when the right operand chain has
three or more entries. -/
theorem claim_C7_counterexample :
    HashTrie.wf hv0 trieC7a = true ∧ HashTrie.wf hv0 trieC7b = true ∧
    (∀ fuel, HashTrie.jt hv0 trieC7a trieC7b bJoin opKeep opKeep fuel = .outOfFuel) ∧
    HashTrie.jt hv0 trieC7b trieC7a (swapBoth bJoin) opKeep opKeep 9 ≠ .outOfFuel := by
  refine ⟨by decide, by decide, ?_, ?_⟩
  · intro fuel
    have hoof : MNode.jt hv0 trieC7a.root trieC7b.root bJoin opKeep opKeep 0 fuel =
        .outOfFuel := by
      show MNode.jt hv0 (.L chainC7a) (.L chainC7b) bJoin opKeep opKeep 0 fuel = .outOfFuel
      simp only [MNode.jt]
      exact jtLL_oof (show hv0 chainC7a.key = hv0 chainC7b.key from rfl)
        (show chainC7b.next = .L (LNode.new 6 60 (.S ⟨7, 70⟩)) from rfl)
    unfold HashTrie.jt
    rw [hoof]
  · intro hcontra
    have hok : (match jtLL hv0 chainC7b chainC7a (swapBoth bJoin) opKeep opKeep 0 9 with
        | JTR.ok _ => true
        | _ => false) = true := by rfl
    unfold HashTrie.jt at hcontra
    rw [show MNode.jt hv0 trieC7b.root trieC7a.root (swapBoth bJoin) opKeep opKeep 0 9 =
        jtLL hv0 chainC7b chainC7a (swapBoth bJoin) opKeep opKeep 0 9 from by
          show MNode.jt hv0 (.L chainC7b) (.L chainC7a) (swapBoth bJoin) opKeep opKeep 0 9 = _
          simp only [MNode.jt]] at hcontra
    rcases hval : jtLL hv0 chainC7b chainC7a (swapBoth bJoin) opKeep opKeep 0 9 with o | _ | _
    · rw [hval] at hcontra
      rcases o with _ | n <;> simp at hcontra
    · rw [hval] at hok
      simp at hok
    · rw [hval] at hok
      simp at hok

/-- C7 (amended): on well-formed tries, whenever the joint transmute
returns a trie in both operand orders (the swapped order taking the
swapped both callback and exchanged unary callbacks), the two returned
tries are equal up to collision-chain reordering; the walker
canonicalizes the mixed orderings by dispatching swapped operands with
swapped callbacks into the same walker.  (Unconditional equality fails:
the gather-loop divergence of C1 is orientation-dependent.) -/
theorem claim_C7 (hv : K → Nat) (t1 t2 : HashTrie K V)
    (b : K → V → K → V → Option (K × V)) (lop rop : K → V → Option (K × V)) (fuel : Nat)
    (h1 : HashTrie.wf hv t1 = true) (h2 : HashTrie.wf hv t2 = true) :
    ∀ r1 r2, HashTrie.jt hv t1 t2 b lop rop fuel = .ok r1 →
      HashTrie.jt hv t2 t1 (swapBoth b) rop lop fuel = .ok r2 →
      MNode.eqb r1.root r2.root = true := by
  intro r1 r2 e1 e2
  have hs := jt_symm hv (MNode.tsize t1.root + MNode.tsize t2.root) t1.root t2.root (le_refl _)
    b lop rop 0 0 fuel (by omega) h1 h2
  unfold HashTrie.jt at e1 e2
  rcases hm1 : MNode.jt hv t1.root t2.root b lop rop 0 fuel with o1 | _ | _ <;>
    rw [hm1] at e1 hs
  · rcases hm2 : MNode.jt hv t2.root t1.root (swapBoth b) rop lop 0 fuel with o2 | _ | _ <;>
      rw [hm2] at e2 hs
    · rcases o1 with _ | n1 <;> rcases o2 with _ | n2
      · simp at e1 e2
        rw [← e1, ← e2]
        exact eqb_refl _
      · simp [JTR.symmEq, optEqbM] at hs
      · simp [JTR.symmEq, optEqbM] at hs
      · simp at e1 e2
        rw [← e1, ← e2]
        simpa [JTR.symmEq, optEqbM] using hs
    · simp at e2
    · simp at e2
  · simp at e1
  · simp at e1

/-- The merged node of the C7 witness: two singleton children at slots 1
and 2 of a depth-0 CNode. -/
def nodeC7 : MNode Nat Nat := .C (mkCNode 6 [.S ⟨1, 10⟩, .S ⟨2, 20⟩])

/-- A singleton trie at key 1. -/
def trieC7c : HashTrie Nat Nat := ⟨.S ⟨1, 10⟩⟩

/-- A singleton trie at key 2. -/
def trieC7d : HashTrie Nat Nat := ⟨.S ⟨2, 20⟩⟩

/-- Witness for C7 on two well-formed singleton tries: both operand
orders return the same two-child CNode. -/
theorem claim_C7_witness :
    HashTrie.wf idh trieC7c = true ∧ HashTrie.wf idh trieC7d = true ∧
    MNode.eqb (HashTrie.mk nodeC7).root (HashTrie.mk nodeC7).root = true :=
  ⟨by decide, by decide,
    claim_C7 idh trieC7c trieC7d bJoin opKeep opKeep 3 (by decide) (by decide)
      (HashTrie.mk nodeC7) (HashTrie.mk nodeC7)
      (by unfold HashTrie.jt
          rw [show MNode.jt idh trieC7c.root trieC7d.root bJoin opKeep opKeep 0 3 =
            jtSS idh ⟨1, 10⟩ ⟨2, 20⟩ bJoin opKeep opKeep 0 from by
              show MNode.jt idh (.S ⟨1, 10⟩) (.S ⟨2, 20⟩) bJoin opKeep opKeep 0 3 = _
              simp only [MNode.jt]]
          rfl)
      (by unfold HashTrie.jt
          rw [show MNode.jt idh trieC7d.root trieC7c.root (swapBoth bJoin) opKeep opKeep 0 3 =
            jtSS idh ⟨2, 20⟩ ⟨1, 10⟩ (swapBoth bJoin) opKeep opKeep 0 from by
              show MNode.jt idh (.S ⟨2, 20⟩) (.S ⟨1, 10⟩) (swapBoth bJoin) opKeep opKeep 0 3 = _
              simp only [MNode.jt]]
          rfl)⟩

end HT
